import Mathlib

/-!
Verification of the ts-avif core against its specification.

The TypeScript sources are shallowly embedded below.  JavaScript numbers
that flow through bitwise operators are modelled as `Int` together with the
ECMAScript ToInt32/ToUint32 coercions made explicit; byte buffers
(`Uint8Array`) are `List Nat` whose elements are bytes; out-of-range index
reads (which yield `undefined`, hence `0` under any bitwise operator) are
modelled with `List.getD _ _ 0`; `DataView` reads, which throw on
out-of-range offsets, are modelled in `Except`; loops whose progress is not
guaranteed by the source are given explicit fuel, with a dedicated result
constructor for fuel exhaustion.
-/

set_option maxRecDepth 8192

namespace TsAvif

/-! ## JavaScript 32-bit integer primitives -/

/-- ECMAScript ToUint32 of an integral number, as a natural number. -/
def toUint32 (n : Int) : Nat := (n % (2 ^ 32)).toNat

/-- ECMAScript ToInt32: wrap an integral number into `[-2^31, 2^31)`. -/
def toInt32 (n : Int) : Int :=
  let m := n % (2 ^ 32)
  if m < 2 ^ 31 then m else m - 2 ^ 32

/-- JS bitwise AND `a & b` on 32-bit two's-complement values. -/
def jsAnd (a b : Int) : Int := toInt32 (Nat.land (toUint32 a) (toUint32 b))

/-- JS bitwise OR `a | b` on 32-bit two's-complement values. -/
def jsOr (a b : Int) : Int := toInt32 (Nat.lor (toUint32 a) (toUint32 b))

/-- JS left shift `a << k`: count taken mod 32, result wrapped to int32. -/
def jsShl (a : Int) (k : Nat) : Int := toInt32 ((toUint32 a <<< (k % 32) : Nat) : Int)

/-- JS signed (arithmetic) right shift `a >> k`.  On `Int`, division by a
positive power of two is floor division, which is exactly the arithmetic
shift of the ToInt32 image. -/
def jsShr (a : Int) (k : Nat) : Int := toInt32 a / 2 ^ (k % 32)

/-- JS `Uint8Array`/`Array` read `l[i]` at a possibly negative index; out of
range gives `undefined`, which every bitwise consumer coerces to 0. -/
def jsGet (l : List Nat) (i : Int) : Int :=
  if 0 ≤ i then (l.getD i.toNat 0 : Nat) else 0

/-- JS `slice(a, b)` on an array of bytes, with the ECMAScript clamping of
negative and oversized indices. -/
def jsSliceI (l : List Nat) (a b : Int) : List Nat :=
  let n : Int := l.length
  let a2 := if a < 0 then max (n + a) 0 else min a n
  let b2 := if b < 0 then max (n + b) 0 else min b n
  (l.take b2.toNat).drop a2.toNat

/-- JS `slice(a, b)` for natural indices. -/
def jsSlice (l : List Nat) (a b : Nat) : List Nat := (l.take b).drop a

/-! ## Arithmetic facts about the primitives -/

theorem toInt32_of_nonneg_lt {n : Int} (h0 : 0 ≤ n) (h : n < 2 ^ 31) : toInt32 n = n := by
  simp only [toInt32]
  have : n % 2 ^ 32 = n := Int.emod_eq_of_lt h0 (by omega)
  simp [this]
  omega

theorem toInt32_of_neg {n : Int} (h0 : -(2 ^ 31) ≤ n) (h : n < 0) : toInt32 n = n := by
  simp only [toInt32]
  have : n % 2 ^ 32 = n + 2 ^ 32 := by omega
  rw [this]
  split <;> omega

theorem toInt32_lt (n : Int) : toInt32 n < 2 ^ 31 := by
  simp only [toInt32]
  split <;> omega

theorem toInt32_ge (n : Int) : -(2 ^ 31) ≤ toInt32 n := by
  have h1 : 0 ≤ n % 2 ^ 32 := Int.emod_nonneg n (by norm_num)
  simp only [toInt32]
  split <;> omega

theorem toUint32_of_nonneg_lt {n : Int} (h0 : 0 ≤ n) (h : n < 2 ^ 32) :
    toUint32 n = n.toNat := by
  simp only [toUint32]
  rw [Int.emod_eq_of_lt h0 (by omega)]

theorem toUint32_natCast {n : Nat} (h : n < 2 ^ 32) : toUint32 (n : Int) = n := by
  rw [toUint32_of_nonneg_lt (by positivity) (by exact_mod_cast h), Int.toNat_natCast]

/-! ## Bit-level helper lemmas -/

theorem land_two_pow_sub_one (n k : Nat) : n &&& (2 ^ k - 1) = n % 2 ^ k := by
  apply Nat.eq_of_testBit_eq
  intro i
  rw [Nat.testBit_land, Nat.testBit_two_pow_sub_one, Nat.testBit_mod_two_pow]
  rcases Nat.lt_or_ge i k with h | h <;> simp [h, Nat.not_lt.mpr, Bool.and_comm]

theorem div_add_mul_two_pow (a b k i : Nat) (hik : i ≤ k) :
    (a + 2 ^ k * b) / 2 ^ i = a / 2 ^ i + 2 ^ (k - i) * b := by
  have h : (2 : Nat) ^ k = 2 ^ i * 2 ^ (k - i) := by
    rw [← pow_add]
    congr 1
    omega
  rw [h, Nat.mul_assoc, Nat.add_mul_div_left _ _ (by positivity)]

theorem testBit_add_mul_two_pow (a b k i : Nat) (h : a < 2 ^ k) :
    (a + 2 ^ k * b).testBit i = if i < k then a.testBit i else b.testBit (i - k) := by
  rcases Nat.lt_or_ge i k with hik | hik
  · rw [if_pos hik, Nat.testBit_to_div_mod, Nat.testBit_to_div_mod,
      div_add_mul_two_pow a b k i (Nat.le_of_lt hik)]
    have hk : (2 : Nat) ^ (k - i) = 2 * 2 ^ (k - i - 1) := by
      rw [← pow_succ']
      congr 1
      omega
    rw [hk, decide_eq_decide, Nat.mul_assoc]
    omega
  · rw [if_neg (by omega), Nat.testBit_to_div_mod, Nat.testBit_to_div_mod]
    have h1 : (a + 2 ^ k * b) / 2 ^ i = b / 2 ^ (i - k) := by
      have hsplit : (2 : Nat) ^ i = 2 ^ k * 2 ^ (i - k) := by
        rw [← pow_add]
        congr 1
        omega
      rw [hsplit, ← Nat.div_div_eq_div_mul, Nat.add_mul_div_left _ _ (by positivity),
        Nat.div_eq_of_lt h, Nat.zero_add]
    rw [h1]

theorem lor_add_mul_two_pow (a b k : Nat) (h : a < 2 ^ k) :
    a ||| 2 ^ k * b = a + 2 ^ k * b := by
  apply Nat.eq_of_testBit_eq
  intro i
  rw [Nat.testBit_lor, testBit_add_mul_two_pow a b k i h]
  have hmul : 2 ^ k * b = b <<< k := by rw [Nat.shiftLeft_eq, Nat.mul_comm]
  rw [hmul, Nat.testBit_shiftLeft]
  rcases Nat.lt_or_ge i k with hik | hik
  · simp [Nat.not_le.mpr hik, hik]
  · have ha : a.testBit i = false :=
      Nat.testBit_eq_false_of_lt (lt_of_lt_of_le h (Nat.pow_le_pow_right (by norm_num) hik))
    simp [ha, hik, Nat.not_lt.mpr hik]

theorem land_two_pow_of_lt {a k : Nat} (h : a < 2 ^ k) : a &&& 2 ^ k = 0 := by
  rw [Nat.and_two_pow, Nat.testBit_eq_false_of_lt h]
  simp

theorem land_add_two_pow (a k : Nat) (h : a < 2 ^ k) : (a + 2 ^ k) &&& 2 ^ k = 2 ^ k := by
  rw [Nat.and_two_pow]
  have : (a + 2 ^ k).testBit k = true := by
    have := testBit_add_mul_two_pow a 1 k k h
    simpa using this
  simp [this]

/-! ## Derived facts about the JS primitives on in-range values -/

theorem jsAnd_natCast (a b : Nat) (ha : a < 2 ^ 31) (hb : b < 2 ^ 31) :
    jsAnd (a : Int) (b : Int) = ((a &&& b : Nat) : Int) := by
  have hland : (a &&& b : Nat) ≤ a := Nat.and_le_left
  rw [jsAnd, toUint32_natCast (by omega), toUint32_natCast (by omega),
    toInt32_of_nonneg_lt (by positivity) (by exact_mod_cast lt_of_le_of_lt hland ha)]
  rfl

theorem jsOr_natCast (a b : Nat) (h : a ||| b < 2 ^ 31) (ha : a < 2 ^ 32) (hb : b < 2 ^ 32) :
    jsOr (a : Int) (b : Int) = ((a ||| b : Nat) : Int) := by
  rw [jsOr, toUint32_natCast ha, toUint32_natCast hb,
    toInt32_of_nonneg_lt (by positivity) (by exact_mod_cast h)]
  rfl

theorem jsShl_natCast (a k : Nat) (hk : k < 32) (h : a * 2 ^ k < 2 ^ 31) :
    jsShl (a : Int) k = ((a * 2 ^ k : Nat) : Int) := by
  have ha : a < 2 ^ 32 := by
    have h2 : (1 : Nat) ≤ 2 ^ k := Nat.one_le_two_pow
    calc a = a * 1 := by ring
    _ ≤ a * 2 ^ k := Nat.mul_le_mul_left a h2
    _ < 2 ^ 32 := by omega
  rw [jsShl, toUint32_natCast ha, Nat.mod_eq_of_lt hk, Nat.shiftLeft_eq,
    toInt32_of_nonneg_lt (by positivity) (by exact_mod_cast h)]

theorem jsShr_natCast (a : Nat) (k : Nat) (hk : k < 32) (h : a < 2 ^ 31) :
    jsShr (a : Int) k = ((a / 2 ^ k : Nat) : Int) := by
  rw [jsShr, toInt32_of_nonneg_lt (by positivity) (by exact_mod_cast h), Nat.mod_eq_of_lt hk]
  rw [Int.natCast_div]
  push_cast
  rfl

/-! ## LEB128 (src/av1/obu.ts)

`writeLeb128` is a JS `do/while` whose loop variable goes through ToInt32 at
every bitwise operator; for inputs at and above `2^31` the value turns
negative and never reaches 0 again, so the loop does not terminate.  It is
therefore modelled with fuel (`none` = the loop is still running when the
fuel runs out). -/

def writeLeb128Aux : Nat → Int → List Nat → Option (List Nat)
  | 0, _, _ => none
  | fuel + 1, value, acc =>
    let b := jsAnd value 127
    let value2 := jsShr value 7
    let b2 := if value2 ≠ 0 then jsOr b 128 else b
    if value2 = 0 then some (acc ++ [toUint32 b2 % 256])
    else writeLeb128Aux fuel value2 (acc ++ [toUint32 b2 % 256])

/-- Embeds `writeLeb128(value)` from src/av1/obu.ts, with explicit fuel. -/
def writeLeb128 (fuel : Nat) (value : Int) : Option (List Nat) :=
  writeLeb128Aux fuel value []

/-- Embeds `readLeb128(data, offset)` loop body; `none` models the two throws
(end of data, value too large).  The loop body runs at most 9 times, so
fuel 9 makes the fuel-out case unreachable. -/
def readLeb128Aux : Nat → List Nat → Int → Int → Nat → Option (Int × Nat)
  | 0, _, _, _, _ => none
  | fuel + 1, data, offset, value, bytes =>
    if offset + (bytes : Int) ≥ (data.length : Int) then none
    else
      let byte := jsGet data (offset + (bytes : Int))
      let value2 := jsOr value (jsShl (jsAnd byte 127) (bytes * 7))
      let bytes2 := bytes + 1
      if bytes2 > 8 then none
      else if jsAnd byte 128 ≠ 0 then readLeb128Aux fuel data offset value2 bytes2
      else some (value2, bytes2)

/-- Embeds `readLeb128(data, offset)` from src/av1/obu.ts. -/
def readLeb128 (data : List Nat) (offset : Int) : Option (Int × Nat) :=
  readLeb128Aux 9 data offset 0 0

/-- Reference little-endian base-128 encoding of a natural number: the byte
list `writeLeb128` emits on the range where it terminates. -/
def lebN (v : Nat) : List Nat :=
  if h : v < 128 then [v]
  else (v % 128 + 128) :: lebN (v / 128)
decreasing_by exact Nat.div_lt_self (by omega) (by omega)

theorem lebN_length_le : ∀ k v : Nat, v < 128 ^ (k + 1) → (lebN v).length ≤ k + 1 := by
  intro k
  induction k with
  | zero =>
    intro v hv
    rw [lebN, dif_pos (by omega)]
    simp
  | succ n ih =>
    intro v hv
    by_cases h : v < 128
    · rw [lebN, dif_pos h]
      simp
    · rw [lebN, dif_neg h]
      have : v / 128 < 128 ^ (n + 1) := by
        apply Nat.div_lt_of_lt_mul
        calc v < 128 ^ (n + 1 + 1) := hv
        _ = 128 * 128 ^ (n + 1) := by ring
      simpa using ih (v / 128) this

theorem lebN_length_pos (v : Nat) : 1 ≤ (lebN v).length := by
  rw [lebN]
  split <;> simp

theorem jsShl_zero (k : Nat) : jsShl 0 k = 0 := by
  simp [jsShl, toUint32, toInt32]

/-- Unfolding equation for one pass of the `writeLeb128` loop body. -/
theorem writeLeb128Aux_step (f : Nat) (value : Int) (acc : List Nat) :
    writeLeb128Aux (f + 1) value acc =
      if jsShr value 7 = 0 then some (acc ++ [toUint32 (jsAnd value 127) % 256])
      else writeLeb128Aux f (jsShr value 7)
        (acc ++ [toUint32 (jsOr (jsAnd value 127) 128) % 256]) := by
  rw [writeLeb128Aux]
  by_cases h : jsShr value 7 = 0 <;> simp [h]

/-- On nonnegative inputs below `2^31` the encoder terminates and emits the
minimal base-128 byte string. -/
theorem writeLeb128Aux_spec : ∀ v : Nat, v < 2 ^ 31 →
    ∀ fuel acc, (lebN v).length ≤ fuel →
      writeLeb128Aux fuel (v : Int) acc = some (acc ++ lebN v) := by
  intro v
  induction v using Nat.strong_induction_on with
  | _ v ih =>
    intro hv fuel acc hfuel
    obtain ⟨f, rfl⟩ : ∃ f, fuel = f + 1 := by
      have := lebN_length_pos v
      cases fuel with
      | zero => omega
      | succ f => exact ⟨f, rfl⟩
    have hand : jsAnd (v : Int) 127 = ((v % 128 : Nat) : Int) := by
      have h1 : ((127 : Nat) : Int) = (127 : Int) := by norm_num
      rw [← h1, jsAnd_natCast v 127 hv (by norm_num)]
      congr 1
      have h2 : (127 : Nat) = 2 ^ 7 - 1 := by norm_num
      rw [h2, land_two_pow_sub_one]
      norm_num
    have hshr : jsShr (v : Int) 7 = ((v / 128 : Nat) : Int) := by
      have := jsShr_natCast v 7 (by norm_num) hv
      simpa using this
    rw [writeLeb128Aux_step]
    by_cases h : v < 128
    · have hdiv : v / 128 = 0 := Nat.div_eq_of_lt h
      rw [if_pos (by rw [hshr, hdiv]; norm_num)]
      rw [hand, toUint32_natCast (by omega), Nat.mod_eq_of_lt (by omega),
        Nat.mod_eq_of_lt h, lebN, dif_pos h]
    · have hdivpos : 1 ≤ v / 128 := (Nat.one_le_div_iff (by norm_num)).mpr (by omega)
      rw [if_neg (by rw [hshr]; exact_mod_cast (by omega : ¬ (v / 128 : Nat) = 0))]
      have hor : jsOr ((v % 128 : Nat) : Int) 128 = ((v % 128 + 128 : Nat) : Int) := by
        have hlor : (v % 128) ||| 128 = v % 128 + 128 := by
          have := lor_add_mul_two_pow (v % 128) 1 7 (by omega)
          simpa using this
        have h1 : ((128 : Nat) : Int) = (128 : Int) := by norm_num
        have hbound : (v % 128) ||| 128 < 2 ^ 31 := by rw [hlor]; omega
        rw [← h1, jsOr_natCast (v % 128) 128 hbound (by omega) (by omega), hlor]
      rw [hand, hor, hshr, toUint32_natCast (by omega), Nat.mod_eq_of_lt (by omega)]
      have hrec := ih (v / 128) (Nat.div_lt_self (by omega) (by norm_num))
        (lt_of_le_of_lt (Nat.div_le_self v 128) hv) f (acc ++ [v % 128 + 128]) ?_
      · rw [hrec]
        conv_rhs => rw [lebN]
        rw [dif_neg h]
        simp
      · have hlen : (lebN v).length = 1 + (lebN (v / 128)).length := by
          rw [lebN, dif_neg h]
          simp [Nat.add_comm]
        omega

/-- Once the loop variable has gone negative (which happens immediately for
inputs in `[2^31, 2^32)` via ToInt32), it stays negative: the do/while never
exits, whatever the fuel. -/
theorem writeLeb128Aux_neg : ∀ fuel (value : Int), toInt32 value < 0 → ∀ acc,
    writeLeb128Aux fuel value acc = none := by
  intro fuel
  induction fuel with
  | zero =>
    intro value h acc
    rfl
  | succ f ih =>
    intro value h acc
    have hrange : -(2 ^ 31) ≤ toInt32 value := toInt32_ge value
    have hshr : jsShr value 7 < 0 := by
      rw [jsShr]
      norm_num
      omega
    have hshr2 : -(2 ^ 31) ≤ jsShr value 7 := by
      rw [jsShr]
      norm_num
      omega
    rw [writeLeb128Aux_step, if_neg (by omega)]
    apply ih
    rw [toInt32_of_neg hshr2 hshr]
    exact hshr

theorem jsGet_natCast (l : List Nat) (m : Nat) :
    jsGet l ((m : Nat) : Int) = ((l.getD m 0 : Nat) : Int) := by
  simp [jsGet]

/-- Unfolding equation for one pass of the `readLeb128` loop body. -/
theorem readLeb128Aux_step (f : Nat) (data : List Nat) (offset value : Int) (bytes : Nat) :
    readLeb128Aux (f + 1) data offset value bytes =
      if offset + (bytes : Int) ≥ (data.length : Int) then none
      else
        if bytes + 1 > 8 then none
        else if jsAnd (jsGet data (offset + (bytes : Int))) 128 ≠ 0 then
          readLeb128Aux f data offset
            (jsOr value (jsShl (jsAnd (jsGet data (offset + (bytes : Int))) 127) (bytes * 7)))
            (bytes + 1)
        else some
          (jsOr value (jsShl (jsAnd (jsGet data (offset + (bytes : Int))) 127) (bytes * 7)),
            bytes + 1) := rfl

/-- JS `x & 0x7F` extracts the low 7 bits of a byte value. -/
theorem jsAnd127_byte (a : Nat) (ha : a < 2 ^ 31) :
    jsAnd ((a : Nat) : Int) 127 = ((a % 128 : Nat) : Int) := by
  have h1 : ((127 : Nat) : Int) = (127 : Int) := by norm_num
  rw [← h1, jsAnd_natCast a 127 ha (by norm_num)]
  congr 1
  have h2 : (127 : Nat) = 2 ^ 7 - 1 := by norm_num
  rw [h2, land_two_pow_sub_one]
  norm_num

/-- JS `x & 0x80` on a value below 128 is zero. -/
theorem jsAnd128_low (a : Nat) (ha : a < 128) :
    jsAnd ((a : Nat) : Int) 128 = 0 := by
  have h1 : ((128 : Nat) : Int) = (128 : Int) := by norm_num
  rw [← h1, jsAnd_natCast a 128 (by omega) (by norm_num)]
  have h2 : (128 : Nat) = 2 ^ 7 := by norm_num
  rw [h2, land_two_pow_of_lt (by omega : a < 2 ^ 7)]
  norm_num

/-- JS `x & 0x80` on a value in `[128, 256)` is 128. -/
theorem jsAnd128_high (a : Nat) (hlo : 128 ≤ a) (hhi : a < 256) :
    jsAnd ((a : Nat) : Int) 128 = ((128 : Nat) : Int) := by
  have h1 : ((128 : Nat) : Int) = (128 : Int) := by norm_num
  rw [← h1, jsAnd_natCast a 128 (by omega) (by norm_num)]
  congr 1
  have h2 : (128 : Nat) = 2 ^ 7 := by norm_num
  rw [h2]
  have h3 : a = (a - 128) + 2 ^ 7 := by
    have : (2 : Nat) ^ 7 = 128 := by norm_num
    omega
  rw [h3, land_add_two_pow (a - 128) 7 (by omega)]

/-- JS `w | g` for a value `w` below `2^k` and a group `g` that is a
multiple of `2^k`, with the sum in int32 range, is plain addition. -/
theorem jsOr_acc (w b k : Nat) (hw : w < 2 ^ k) (hbound : w + b * 2 ^ k < 2 ^ 31) :
    jsOr ((w : Nat) : Int) ((b * 2 ^ k : Nat) : Int) = ((w + b * 2 ^ k : Nat) : Int) := by
  have hlor : w ||| b * 2 ^ k = w + b * 2 ^ k := by
    have h5 := lor_add_mul_two_pow w b k hw
    rw [Nat.mul_comm (2 ^ k) b] at h5
    exact h5
  have hb2 : w ||| b * 2 ^ k < 2 ^ 31 := by rw [hlor]; omega
  rw [jsOr_natCast w (b * 2 ^ k) hb2 (by omega) (by omega), hlor]

/-- A JS left shift of a 7-bit group to a byte position below bit 31 is an
exact multiplication. -/
theorem jsShl_group (a e : Nat) (hbound : a * 2 ^ e < 2 ^ 31) :
    jsShl (a : Int) e = ((a * 2 ^ e : Nat) : Int) := by
  rcases Nat.eq_zero_or_pos a with rfl | hpos
  · simp [jsShl_zero]
  · apply jsShl_natCast a e _ hbound
    have h2 : (2 : Nat) ^ e < 2 ^ 31 := by
      have h3 : 1 * 2 ^ e ≤ a * 2 ^ e := Nat.mul_le_mul_right _ (by omega)
      omega
    have h4 := (Nat.pow_lt_pow_iff_right (by norm_num : 1 < 2)).mp h2
    omega

/-- One continuation step of the decoder against `lebN`: the byte at the
cursor carries the continuation bit, the 7-bit group is accumulated, and the
loop proceeds to the remaining groups (given by the induction hypothesis
`ihv` for `v / 128`). -/
theorem readLeb128Aux_contStep (v w bytes : Nat) (data : List Nat) (offset f : Nat)
    (h : ¬ v < 128)
    (hagree : ∀ j, j < (lebN v).length → data.getD (offset + bytes + j) 0 = (lebN v).getD j 0)
    (hbound : offset + bytes + (lebN v).length ≤ data.length)
    (hw : w < 2 ^ (bytes * 7))
    (hsum : w + v * 2 ^ (bytes * 7) < 2 ^ 31)
    (hb8 : bytes + (lebN v).length ≤ 8)
    (hfuel : (lebN v).length ≤ f + 1)
    (ihv : ∀ w2 bytes2 fuel2 : Nat,
      (∀ j, j < (lebN (v / 128)).length →
        data.getD (offset + bytes2 + j) 0 = (lebN (v / 128)).getD j 0) →
      offset + bytes2 + (lebN (v / 128)).length ≤ data.length →
      w2 < 2 ^ (bytes2 * 7) →
      w2 + v / 128 * 2 ^ (bytes2 * 7) < 2 ^ 31 →
      bytes2 + (lebN (v / 128)).length ≤ 8 →
      (lebN (v / 128)).length ≤ fuel2 →
      readLeb128Aux fuel2 data (offset : Int) (w2 : Int) bytes2
        = some (((w2 + v / 128 * 2 ^ (bytes2 * 7) : Nat) : Int),
            bytes2 + (lebN (v / 128)).length)) :
    readLeb128Aux (f + 1) data (offset : Int) (w : Int) bytes
      = some (((w + v * 2 ^ (bytes * 7) : Nat) : Int), bytes + (lebN v).length) := by
  have hlenpos := lebN_length_pos v
  rw [readLeb128Aux_step]
  rw [if_neg (by omega)]
  rw [if_neg (by omega)]
  have hidx : offset + (bytes : Int) = ((offset + bytes : Nat) : Int) := by push_cast; ring
  have hhead := hagree 0 hlenpos
  have hm : v % 128 < 128 := Nat.mod_lt v (by norm_num)
  have hlist : lebN v = (v % 128 + 128) :: lebN (v / 128) := by rw [lebN, dif_neg h]
  have hhead2 : data.getD (offset + bytes) 0 = v % 128 + 128 := by
    rw [hlist] at hhead
    simpa only [Nat.add_zero, List.getD_cons_zero] using hhead
  have hbyte : jsGet data (offset + (bytes : Int)) = ((v % 128 + 128 : Nat) : Int) := by
    rw [hidx, jsGet_natCast, hhead2]
  have hand : jsAnd ((v % 128 + 128 : Nat) : Int) 127 = ((v % 128 : Nat) : Int) := by
    rw [jsAnd127_byte (v % 128 + 128)
      (lt_of_lt_of_le (Nat.add_lt_add_right hm 128) (by norm_num))]
    rw [Nat.add_mod_right, Nat.mod_eq_of_lt hm]
  have hle : v % 128 * 2 ^ (bytes * 7) ≤ v * 2 ^ (bytes * 7) :=
    Nat.mul_le_mul_right _ (Nat.mod_le v 128)
  have hshift : jsShl ((v % 128 : Nat) : Int) (bytes * 7)
      = ((v % 128 * 2 ^ (bytes * 7) : Nat) : Int) :=
    jsShl_group (v % 128) (bytes * 7)
      (lt_of_le_of_lt hle
        (lt_of_le_of_lt (Nat.le_add_left (v * 2 ^ (bytes * 7)) w) hsum))
  have hor : jsOr ((w : Nat) : Int) ((v % 128 * 2 ^ (bytes * 7) : Nat) : Int)
      = ((w + v % 128 * 2 ^ (bytes * 7) : Nat) : Int) :=
    jsOr_acc w (v % 128) (bytes * 7) hw
      (lt_of_le_of_lt (Nat.add_le_add_left hle w) hsum)
  have hcont : jsAnd ((v % 128 + 128 : Nat) : Int) 128 = ((128 : Nat) : Int) :=
    jsAnd128_high (v % 128 + 128) (Nat.le_add_left 128 (v % 128))
      (lt_of_lt_of_le (Nat.add_lt_add_right hm 128) (by norm_num))
  rw [hbyte, hand, hshift, hcont]
  rw [if_pos (by norm_num)]
  rw [hor]
  -- apply the induction hypothesis to the remaining groups
  have hlen : (lebN v).length = 1 + (lebN (v / 128)).length := by
    rw [hlist]
    simp [Nat.add_comm]
  have hpow : (2 : Nat) ^ ((bytes + 1) * 7) = 2 ^ (bytes * 7) * 128 := by
    have : (bytes + 1) * 7 = bytes * 7 + 7 := by ring
    rw [this, pow_add]
    norm_num
  have hval : w + v % 128 * 2 ^ (bytes * 7) + v / 128 * 2 ^ ((bytes + 1) * 7)
      = w + v * 2 ^ (bytes * 7) := by
    have hv128 : v % 128 + 128 * (v / 128) = v := Nat.mod_add_div v 128
    rw [hpow]
    calc w + v % 128 * 2 ^ (bytes * 7) + v / 128 * (2 ^ (bytes * 7) * 128)
        = w + (v % 128 + 128 * (v / 128)) * 2 ^ (bytes * 7) := by ring
    _ = w + v * 2 ^ (bytes * 7) := by rw [hv128]
  have hrec := ihv (w + v % 128 * 2 ^ (bytes * 7)) (bytes + 1) f ?_ ?_ ?_ ?_ ?_ ?_
  · rw [hrec, hval, hlen, Nat.add_assoc]
  · intro j hj
    have hidx2 : offset + (bytes + 1) + j = offset + bytes + (j + 1) := by ring
    rw [hidx2]
    have h1 := hagree (j + 1) (by rw [hlen]; omega)
    rw [hlist, List.getD_cons_succ] at h1
    exact h1
  · omega
  · rw [hpow]
    have h127 : v % 128 * 2 ^ (bytes * 7) ≤ 127 * 2 ^ (bytes * 7) :=
      Nat.mul_le_mul_right _ (Nat.le_of_lt_succ hm)
    calc w + v % 128 * 2 ^ (bytes * 7)
        < 2 ^ (bytes * 7) + 127 * 2 ^ (bytes * 7) := add_lt_add_of_lt_of_le hw h127
    _ = 2 ^ (bytes * 7) * 128 := by ring
  · rw [hval]
    exact hsum
  · omega
  · omega

/-- The decoder, run over a buffer that carries `lebN v` starting at
byte position `offset + bytes`, with `bytes` groups already accumulated
into `value = w`, finishes with value `w + v * 2^(7*bytes)` after
consuming exactly the `lebN v` bytes. -/
theorem readLeb128Aux_spec : ∀ v w bytes : Nat, ∀ data : List Nat, ∀ offset fuel : Nat,
    (∀ j, j < (lebN v).length → data.getD (offset + bytes + j) 0 = (lebN v).getD j 0) →
    offset + bytes + (lebN v).length ≤ data.length →
    w < 2 ^ (bytes * 7) →
    w + v * 2 ^ (bytes * 7) < 2 ^ 31 →
    bytes + (lebN v).length ≤ 8 →
    (lebN v).length ≤ fuel →
    readLeb128Aux fuel data (offset : Int) (w : Int) bytes
      = some (((w + v * 2 ^ (bytes * 7) : Nat) : Int), bytes + (lebN v).length) := by
  intro v
  induction v using Nat.strong_induction_on with
  | _ v ih =>
    intro w bytes data offset fuel hagree hbound hw hsum hb8 hfuel
    obtain ⟨f, rfl⟩ : ∃ f, fuel = f + 1 := by
      have := lebN_length_pos v
      cases fuel with
      | zero => omega
      | succ f => exact ⟨f, rfl⟩
    by_cases h : v < 128
    · -- final group: `lebN v = [v]`, continuation bit clear
      have hlenpos := lebN_length_pos v
      rw [readLeb128Aux_step]
      rw [if_neg (by omega)]
      rw [if_neg (by omega)]
      have hidx : offset + (bytes : Int) = ((offset + bytes : Nat) : Int) := by push_cast; ring
      have hhead := hagree 0 (by omega)
      have hlist : lebN v = [v] := by rw [lebN, dif_pos h]
      have hhead2 : data.getD (offset + bytes) 0 = v := by
        rw [hlist] at hhead
        simpa only [Nat.add_zero, List.getD_cons_zero] using hhead
      have hbyte : jsGet data (offset + (bytes : Int)) = ((v : Nat) : Int) := by
        rw [hidx, jsGet_natCast, hhead2]
      have hand : jsAnd ((v : Nat) : Int) 127 = ((v : Nat) : Int) := by
        rw [jsAnd127_byte v (by omega), Nat.mod_eq_of_lt h]
      have hshift : jsShl ((v : Nat) : Int) (bytes * 7) = ((v * 2 ^ (bytes * 7) : Nat) : Int) :=
        jsShl_group v (bytes * 7) (by omega)
      have hor : jsOr ((w : Nat) : Int) ((v * 2 ^ (bytes * 7) : Nat) : Int)
          = ((w + v * 2 ^ (bytes * 7) : Nat) : Int) := jsOr_acc w v (bytes * 7) hw hsum
      have hcont : jsAnd ((v : Nat) : Int) 128 = 0 := jsAnd128_low v h
      rw [hbyte, hand, hshift, hcont]
      rw [if_neg (by simp)]
      rw [hor, hlist]
      simp
    · exact readLeb128Aux_contStep v w bytes data offset f h hagree hbound hw hsum hb8 hfuel
        (fun w2 bytes2 fuel2 =>
          ih (v / 128) (Nat.div_lt_self (by omega) (by norm_num)) w2 bytes2 data offset fuel2)

/-- The decoder inverts the encoder below `2^31` and consumes exactly the
emitted bytes. -/
theorem leb128_read_write (v : Nat) (hv : v < 2 ^ 31) :
    readLeb128 (lebN v) 0 = some ((v : Int), (lebN v).length) := by
  have hlen : (lebN v).length ≤ 5 := by
    have := lebN_length_le 4 v (by
      calc v < 2 ^ 31 := hv
      _ < 128 ^ (4 + 1) := by norm_num)
    exact this
  have h := readLeb128Aux_spec v 0 0 (lebN v) 0 9
    (by intro j hj; norm_num)
    (by omega)
    (by norm_num)
    (by simpa using hv)
    (by omega)
    (by omega)
  rw [readLeb128]
  have h0 : ((0 : Nat) : Int) = (0 : Int) := by norm_num
  rw [← h0, h]
  simp

/-- C1 counterexample: the claim quantifies over all of `[0, 2^32)`, but at
`v = 2^31` the encoder's do/while loop never terminates (ToInt32 makes the
loop variable negative, and an arithmetic shift of a negative int32 never
reaches 0), so no byte string is ever produced, whatever the fuel. -/
theorem C1_writeLeb128_diverges_at_two_pow_31 :
    ¬ ∃ fuel bs, writeLeb128 fuel ((2 : Int) ^ 31) = some bs := by
  rintro ⟨fuel, bs, hsome⟩
  rw [writeLeb128, writeLeb128Aux_neg fuel _ ?_ []] at hsome
  · exact Option.noConfusion hsome
  · show toInt32 (2 ^ 31) < 0
    rw [toInt32]
    norm_num

/-- C1 (amended): for every `v` in `[0, 2^31)` the LEB128 encoder terminates
(8 units of loop fuel are never exhausted), and decoding the emitted bytes
from offset 0 returns exactly `v` and consumes exactly the emitted bytes.
For `v` in `[2^31, 2^32)` the encoder's loop never terminates. -/
theorem C1_leb128_roundtrip (v : Nat) (hv : v < 2 ^ 31) :
    ∃ bs, writeLeb128 8 (v : Int) = some bs ∧
      readLeb128 bs 0 = some ((v : Int), bs.length) := by
  refine ⟨lebN v, ?_, leb128_read_write v hv⟩
  rw [writeLeb128]
  have h5 : (lebN v).length ≤ 5 := lebN_length_le 4 v (by
    calc v < 2 ^ 31 := hv
    _ < 128 ^ (4 + 1) := by norm_num)
  simpa using writeLeb128Aux_spec v hv 8 [] (by omega)

/-- C1 witness: the round trip at the concrete value 300. -/
theorem C1_leb128_roundtrip_witness :
    (300 : Nat) < 2 ^ 31 ∧
      ∃ bs, writeLeb128 8 ((300 : Nat) : Int) = some bs ∧
        readLeb128 bs 0 = some (((300 : Nat) : Int), bs.length) :=
  ⟨by norm_num, C1_leb128_roundtrip 300 (by norm_num)⟩

/-! ## AV1 OBU framing (src/av1/obu.ts) -/

/-- The `AV1OBU` record returned by `parseOBU`. -/
structure AV1OBU where
  type : Int
  size : Int
  data : List Nat
deriving DecidableEq, Repr

/-- Error kinds raised by the OBU parser: `invalidOBU` is the forbidden-bit
throw, `lebError` covers the two throws inside `readLeb128`. -/
inductive ObuErr where
  | invalidOBU
  | lebError
deriving DecidableEq, Repr

/-- Header size of an OBU before the size field: 1 byte, plus 1 when the
extension flag (bit 2 of the header) is set. -/
def obuHeaderSize (header : Int) : Nat := if jsAnd header 4 ≠ 0 then 2 else 1

/-- The `(payloadSize, headerSize)` pair of `parseOBU`: when the has-size
bit (bit 1) is set the payload length is LEB128-decoded right after the
header (`none` = the two `readLeb128` throws); otherwise the payload runs to
the end of the buffer. -/
def obuSized (data : List Nat) (offset : Int) (header : Int) : Option (Int × Nat) :=
  if jsAnd header 2 ≠ 0 then
    (readLeb128 data (offset + (obuHeaderSize header : Int))).map
      (fun r => (r.1, obuHeaderSize header + r.2))
  else some ((data.length : Int) - offset - (obuHeaderSize header : Int), obuHeaderSize header)

/-- Tail of `parseOBU`: build the record (type, total size, payload slice)
from the size information, or propagate the LEB128 throw. -/
def obuFinish (data : List Nat) (offset : Int) (header : Int) :
    Option (Int × Nat) → Except ObuErr (Option AV1OBU)
  | none => .error .lebError
  | some (payloadSize, headerSize) =>
    .ok (some ⟨jsAnd (jsShr header 3) 15, (headerSize : Int) + payloadSize,
      jsSliceI data (offset + (headerSize : Int))
        (offset + ((headerSize : Int) + payloadSize))⟩)

/-- Embeds `parseOBU(data, offset)` from src/av1/obu.ts, factored through the
stages above.  Returns `.ok none` for the null return at end of data;
errors are the JS throws. -/
def parseOBU (data : List Nat) (offset : Int) : Except ObuErr (Option AV1OBU) :=
  if offset ≥ (data.length : Int) then .ok none
  else
    let header := jsGet data offset
    if jsAnd header 128 ≠ 0 then .error .invalidOBU
    else obuFinish data offset header (obuSized data offset header)

/-- Loop result with fuel exhaustion (`spin`) kept apart from JS throws. -/
inductive Res (ε : Type) (α : Type) where
  | ok : α → Res ε α
  | err : ε → Res ε α
  | spin : Res ε α
deriving DecidableEq, Repr

/-- Embeds `parseOBUs(data)` loop body.  `offset += obu.size` need not make
progress (a crafted LEB128 size can be zero or negative), hence fuel. -/
def parseOBUsAux : Nat → List Nat → Int → Res ObuErr (List AV1OBU)
  | 0, _, _ => .spin
  | fuel + 1, data, offset =>
    if offset < (data.length : Int) then
      match parseOBU data offset with
      | .error e => .err e
      | .ok none => .ok []
      | .ok (some obu) =>
        match parseOBUsAux fuel data (offset + obu.size) with
        | .ok rest => .ok (obu :: rest)
        | .err e => .err e
        | .spin => .spin
    else .ok []

/-- Embeds `parseOBUs(data)` from src/av1/obu.ts. -/
def parseOBUs (fuel : Nat) (data : List Nat) : Res ObuErr (List AV1OBU) :=
  parseOBUsAux fuel data 0

/-- Options record of `createOBU` (defaults: no extension, ids 0). -/
structure OBUOptions where
  hasExtension : Bool
  temporalId : Int
  spatialId : Int

/-- The default options value of `createOBU`. -/
def defaultOBUOptions : OBUOptions := ⟨false, 0, 0⟩

/-- Embeds `createOBU(type, payload, options)` from src/av1/obu.ts.  The fuel feeds
`writeLeb128`, whose loop need not terminate; `none` means that loop is still
running. -/
def createOBU (fuel : Nat) (type : Int) (payload : List Nat)
    (options : OBUOptions) : Option (List Nat) :=
  let header := jsOr (jsShl type 3) 2
  let header2 := if options.hasExtension then jsOr header 4 else header
  match writeLeb128 fuel ((payload.length : Nat) : Int) with
  | none => none
  | some sizeBytes =>
    let extByte :=
      if options.hasExtension then
        [toUint32 (jsOr (jsShl (jsAnd options.temporalId 7) 5)
          (jsShl (jsAnd options.spatialId 3) 3)) % 256]
      else []
    some ([toUint32 header2 % 256] ++ extByte ++ sizeBytes ++ payload)

/-- Embeds `obuFinish` only errors with the LEB128 kind. -/
theorem obuFinish_error (data : List Nat) (offset header : Int)
    (s : Option (Int × Nat)) (e : ObuErr)
    (he : obuFinish data offset header s = .error e) : e = .lebError := by
  rcases s with _ | ⟨ps, hs⟩
  · exact (Except.error.inj he).symm
  · exact Except.noConfusion he

/-- When the forbidden-bit check passes, the only error `parseOBU` can
produce is the LEB128 one. -/
theorem parseOBU_error_of_no_forbidden (data : List Nat) (offset : Int) (e : ObuErr)
    (hforb : ¬ jsAnd (jsGet data offset) 128 ≠ 0)
    (he : parseOBU data offset = .error e) : e = .lebError := by
  unfold parseOBU at he
  split at he
  · exact Except.noConfusion he
  · rw [if_neg hforb] at he
    exact obuFinish_error _ _ _ _ _ he

/-- C8: `parseOBU` throws `InvalidOBU` exactly when the header byte at the
given offset has its top (forbidden) bit set; when that bit is clear, no
`InvalidOBU` error can be raised (any failure is then a LEB128 throw). -/
theorem C8_parseOBU_forbidden_bit (data : List Nat) (offset : Nat)
    (hoff : offset < data.length) (hbyte : data.getD offset 0 < 256) :
    (Nat.testBit (data.getD offset 0) 7 = true →
      parseOBU data (offset : Int) = .error .invalidOBU) ∧
    (Nat.testBit (data.getD offset 0) 7 = false →
      ∀ e, parseOBU data (offset : Int) = .error e → e ≠ .invalidOBU) := by
  have hne : ¬ ((offset : Int) ≥ (data.length : Int)) := by
    rw [not_le]
    exact_mod_cast hoff
  have hand : jsAnd (jsGet data (offset : Int)) 128
      = ((data.getD offset 0 &&& 128 : Nat) : Int) := by
    rw [jsGet_natCast]
    have h1 : ((128 : Nat) : Int) = (128 : Int) := by norm_num
    rw [← h1, jsAnd_natCast (data.getD offset 0) 128 (by omega) (by norm_num)]
  constructor
  · intro htb
    have h128 : data.getD offset 0 &&& 128 = 128 := by
      have h2 : (128 : Nat) = 2 ^ 7 := by norm_num
      rw [h2, Nat.and_two_pow, htb]
      simp
    unfold parseOBU
    rw [if_neg hne, if_pos (by rw [hand, h128]; norm_num)]
  · intro htb e he hcontra
    have h0 : data.getD offset 0 &&& 128 = 0 := by
      have h2 : (128 : Nat) = 2 ^ 7 := by norm_num
      rw [h2, Nat.and_two_pow, htb]
      simp
    have hforb : ¬ jsAnd (jsGet data (offset : Int)) 128 ≠ 0 := by
      rw [hand, h0]
      norm_num
    have hleb := parseOBU_error_of_no_forbidden data (offset : Int) e hforb he
    subst hcontra
    exact ObuErr.noConfusion hleb

/-- C8 witness: a buffer whose first byte is `0x80` is rejected with
`InvalidOBU`, and one whose first byte is `0x0A` is not. -/
theorem C8_parseOBU_forbidden_bit_witness :
    parseOBU [128] ((0 : Nat) : Int) = .error .invalidOBU ∧
      ∀ e, parseOBU [10, 3, 24, 0, 0] ((0 : Nat) : Int) = .error e → e ≠ .invalidOBU :=
  ⟨(C8_parseOBU_forbidden_bit [128] 0 (by norm_num) (by norm_num)).1 (by decide),
    (C8_parseOBU_forbidden_bit [10, 3, 24, 0, 0] 0 (by norm_num) (by norm_num)).2 (by decide)⟩

/-- A `min` of natural casts, seen through `Int.toNat`. -/
theorem toNat_min_natCast (a b : Nat) : (min (a : Int) (b : Int)).toNat = min a b := by
  rw [← Nat.cast_min, Int.toNat_natCast]

/-- Embeds `jsSliceI` at natural indices is take-then-drop with clamping. -/
theorem jsSliceI_natCast (l : List Nat) (a b : Nat) :
    jsSliceI l (a : Int) (b : Int) = (l.take (min b l.length)).drop (min a l.length) := by
  unfold jsSliceI
  dsimp only []
  rw [if_neg (not_lt.mpr (Int.natCast_nonneg a)), if_neg (not_lt.mpr (Int.natCast_nonneg b)),
    toNat_min_natCast, toNat_min_natCast]

/-- The low bits of the header byte `(type << 3) | 0x02` built by
`createOBU`: forbidden bit clear, extension flag clear, size flag set, and
the 4-bit type field reads back. -/
theorem obu_header_bits (t : Nat) (ht : t < 16) :
    (8 * t + 2) &&& 128 = 0 ∧ (8 * t + 2) &&& 4 = 0 ∧ (8 * t + 2) &&& 2 = 2 ∧
      (8 * t + 2) / 8 = t ∧ t &&& 15 = t := by
  interval_cases t <;> exact ⟨by decide, by decide, by decide, by decide, by decide⟩

/-- The header byte expression of `createOBU` evaluates to `8*type + 2`. -/
theorem obu_header_val (t : Nat) (ht : t < 16) :
    jsOr (jsShl (t : Int) 3) 2 = ((8 * t + 2 : Nat) : Int) := by
  interval_cases t <;> rfl

/-- The stored header byte is already a byte. -/
theorem obu_header_byte (t : Nat) (ht : t < 16) :
    toUint32 ((8 * t + 2 : Nat) : Int) % 256 = 8 * t + 2 := by
  rw [toUint32_natCast (by omega), Nat.mod_eq_of_lt (by omega)]

/-- Unfolding equation for `createOBU` (the auto-generated one is avoided
on purpose; this one is a plain `rfl`). -/
theorem createOBU_unfold (fuel : Nat) (type : Int) (payload : List Nat)
    (options : OBUOptions) :
    createOBU fuel type payload options =
      match writeLeb128 fuel ((payload.length : Nat) : Int) with
      | none => none
      | some sizeBytes =>
        some ([toUint32 (if options.hasExtension then jsOr (jsOr (jsShl type 3) 2) 4
            else jsOr (jsShl type 3) 2) % 256] ++
          (if options.hasExtension then
            [toUint32 (jsOr (jsShl (jsAnd options.temporalId 7) 5)
              (jsShl (jsAnd options.spatialId 3) 3)) % 256]
          else []) ++ sizeBytes ++ payload) := rfl

/-- Embeds `createOBU` with default options builds header byte, LEB128 size field,
then the payload, whenever the payload is short enough for the LEB128
encoder to terminate. -/
theorem createOBU_eval (t : Nat) (ht : t < 16) (payload : List Nat)
    (hn : payload.length < 2 ^ 31) :
    createOBU 8 (t : Int) payload defaultOBUOptions
      = some ((8 * t + 2) :: (lebN payload.length ++ payload)) := by
  have hlen5 : (lebN payload.length).length ≤ 5 := lebN_length_le 4 _ (by
    calc payload.length < 2 ^ 31 := hn
    _ < 128 ^ (4 + 1) := by norm_num)
  have hw : writeLeb128 8 ((payload.length : Nat) : Int) = some (lebN payload.length) := by
    rw [writeLeb128]
    simpa using writeLeb128Aux_spec payload.length hn 8 [] (by omega)
  rw [createOBU_unfold, hw]
  dsimp only [defaultOBUOptions]
  rw [if_neg (by norm_num), if_neg (by norm_num), obu_header_val t ht, obu_header_byte t ht]
  simp

/-- Parsing a buffer laid out as `createOBU` with default options produces
the original type and payload. -/
theorem parseOBU_header_leb_payload (t : Nat) (ht : t < 16) (payload : List Nat)
    (hn : payload.length < 2 ^ 31) :
    parseOBU ((8 * t + 2) :: (lebN payload.length ++ payload)) 0
      = .ok (some ⟨(t : Int),
          ((1 + (lebN payload.length).length : Nat) : Int) + (payload.length : Int),
          payload⟩) := by
  set n := payload.length with hnn
  set L := (lebN n).length with hL
  set buf := (8 * t + 2) :: (lebN n ++ payload) with hbuf
  have hbits := obu_header_bits t ht
  have hlen5 : L ≤ 5 := lebN_length_le 4 n (by
    calc n < 2 ^ 31 := hn
    _ < 128 ^ (4 + 1) := by norm_num)
  have hlenbuf : buf.length = 1 + (L + n) := by
    rw [hbuf]
    simp only [List.length_cons, List.length_append, hL, hnn]
    omega
  have hget : jsGet buf 0 = ((8 * t + 2 : Nat) : Int) := by
    have h0 : (0 : Int) = ((0 : Nat) : Int) := by norm_num
    rw [h0, jsGet_natCast]
    rw [hbuf, List.getD_cons_zero]
  have hforb : jsAnd ((8 * t + 2 : Nat) : Int) 128 = 0 := by
    have h1 : ((128 : Nat) : Int) = (128 : Int) := by norm_num
    rw [← h1, jsAnd_natCast (8 * t + 2) 128 (by omega) (by norm_num), hbits.1]
    norm_num
  have hhs : obuHeaderSize ((8 * t + 2 : Nat) : Int) = 1 := by
    unfold obuHeaderSize
    rw [if_neg]
    rw [ne_eq, not_not]
    have h1 : ((4 : Nat) : Int) = (4 : Int) := by norm_num
    rw [← h1, jsAnd_natCast (8 * t + 2) 4 (by omega) (by norm_num), hbits.2.1]
    norm_num
  have hagree : ∀ j, j < (lebN n).length → buf.getD (1 + 0 + j) 0 = (lebN n).getD j 0 := by
    intro j hj
    rw [hbuf]
    have h1 : 1 + 0 + j = j + 1 := by omega
    rw [h1, List.getD_cons_succ]
    exact List.getD_append _ _ _ _ hj
  have hr : readLeb128 buf (((1 : Nat) : Int)) = some ((n : Int), L) := by
    rw [readLeb128]
    have h := readLeb128Aux_spec n 0 0 buf 1 9 hagree
      (by rw [hlenbuf, ← hL]; omega)
      (by norm_num)
      (by simpa using hn)
      (by rw [← hL]; omega)
      (by rw [← hL]; omega)
    simpa using h
  have hsized : obuSized buf 0 ((8 * t + 2 : Nat) : Int) = some ((n : Int), 1 + L) := by
    unfold obuSized
    rw [if_pos]
    · rw [hhs]
      have hoff : (0 : Int) + (((1 : Nat)) : Int) = ((1 : Nat) : Int) := by norm_num
      rw [hoff, hr, Option.map_some']
    · have h1 : ((2 : Nat) : Int) = (2 : Int) := by norm_num
      rw [← h1, jsAnd_natCast (8 * t + 2) 2 (by omega) (by norm_num), hbits.2.2.1]
      norm_num
  have htypeval : jsAnd (jsShr ((8 * t + 2 : Nat) : Int) 3) 15 = (t : Int) := by
    rw [jsShr_natCast (8 * t + 2) 3 (by norm_num) (by omega)]
    have h8 : (8 * t + 2) / 2 ^ 3 = t := by omega
    rw [h8]
    have h1 : ((15 : Nat) : Int) = (15 : Int) := by norm_num
    rw [← h1, jsAnd_natCast t 15 (by omega) (by norm_num), hbits.2.2.2.2]
  have hslice : jsSliceI buf ((0 : Int) + ((1 + L : Nat) : Int))
      ((0 : Int) + (((1 + L : Nat) : Int) + (n : Int))) = payload := by
    have ha : (0 : Int) + ((1 + L : Nat) : Int) = ((1 + L : Nat) : Int) := by norm_num
    have hb : (0 : Int) + (((1 + L : Nat) : Int) + (n : Int)) = ((1 + L + n : Nat) : Int) := by
      push_cast
      ring
    rw [ha, hb, jsSliceI_natCast]
    have h1 : min (1 + L + n) buf.length = buf.length := by omega
    have h2 : min (1 + L) buf.length = 1 + L := by omega
    rw [h1, h2, List.take_length]
    have h3 : buf = ((8 * t + 2) :: lebN n) ++ payload := by
      rw [hbuf]
      simp
    have h4 : (1 + L : Nat) = ((8 * t + 2) :: lebN n).length := by
      simp [hL, Nat.add_comm]
    rw [h3, h4, List.drop_left]
  unfold parseOBU
  rw [if_neg (by rw [hlenbuf]; push_cast; omega)]
  dsimp only []
  rw [hget, if_neg (by rw [hforb]; norm_num), hsized]
  unfold obuFinish
  rw [htypeval]
  dsimp only []
  rw [hslice]

/-- C6 counterexample: the claim quantifies over every payload byte
sequence, but for a payload of length `2^31` (representable in a JS
`Uint8Array`) `createOBU` never returns: its `writeLeb128(payload.length)`
call loops forever, so there is no buffer to parse. -/
theorem C6_createOBU_diverges_on_huge_payload :
    ¬ ∃ fuel buf, createOBU fuel ((6 : Nat) : Int)
      (List.replicate (2 ^ 31) 0) defaultOBUOptions = some buf := by
  rintro ⟨fuel, buf, h⟩
  rw [createOBU_unfold] at h
  have hlen : ((List.replicate (2 ^ 31) (0 : Nat)).length : Int) = ((2 ^ 31 : Nat) : Int) := by
    rw [List.length_replicate]
  rw [hlen, writeLeb128, writeLeb128Aux_neg fuel _ ?_ []] at h
  · exact Option.noConfusion h
  · show toInt32 ((2 ^ 31 : Nat) : Int) < 0
    have h2 : ((2 ^ 31 : Nat) : Int) = (2 : Int) ^ 31 := by norm_num
    rw [h2, toInt32]
    norm_num

/-- C6 (amended): for every OBU type expressible in 4 bits and every
payload byte sequence shorter than `2^31`, `createOBU` with default options
terminates and `parseOBU` on its output succeeds, returning the same type
and the same payload byte-for-byte.  (For payloads of length `2^31` and up
`createOBU` never returns; see the counterexample.) -/
theorem C6_parseOBU_createOBU_roundtrip (type : Nat) (htype : type < 16)
    (payload : List Nat) (hbytes : ∀ b ∈ payload, b < 256)
    (hlen : payload.length < 2 ^ 31) :
    ∃ buf obu, createOBU 8 (type : Int) payload defaultOBUOptions = some buf ∧
      parseOBU buf 0 = .ok (some obu) ∧
      obu.type = (type : Int) ∧ obu.data = payload := by
  refine ⟨(8 * type + 2) :: (lebN payload.length ++ payload),
    ⟨(type : Int),
      ((1 + (lebN payload.length).length : Nat) : Int) + (payload.length : Int), payload⟩,
    createOBU_eval type htype payload hlen,
    parseOBU_header_leb_payload type htype payload hlen, rfl, rfl⟩

/-- C6 witness: round trip of type 6 with payload `[1, 2, 3]`. -/
theorem C6_parseOBU_createOBU_roundtrip_witness :
    (6 : Nat) < 16 ∧ (∀ b ∈ [1, 2, 3], b < 256) ∧ ([1, 2, 3] : List Nat).length < 2 ^ 31 ∧
      ∃ buf obu, createOBU 8 ((6 : Nat) : Int) [1, 2, 3] defaultOBUOptions = some buf ∧
        parseOBU buf 0 = .ok (some obu) ∧
        obu.type = ((6 : Nat) : Int) ∧ obu.data = [1, 2, 3] :=
  ⟨by norm_num, by decide, by norm_num,
    C6_parseOBU_createOBU_roundtrip 6 (by norm_num) [1, 2, 3] (by decide) (by norm_num)⟩

/-! ## AV1 sequence-header decoder (src/av1/decoder.ts) -/

/-- The `BitReader` cursor state: byte position and bit position (MSB
first) over an immutable byte buffer. -/
structure BitReader where
  data : List Nat
  pos : Nat
  bitPos : Nat
deriving DecidableEq, Repr

/-- Embeds `readBit()`: returns 0 past the end of the data without advancing;
otherwise extracts bit `7 - bitPos` of the current byte and advances. -/
def BitReader.readBit (r : BitReader) : Nat × BitReader :=
  if r.data.length ≤ r.pos then (0, r)
  else
    let bit := r.data.getD r.pos 0 / 2 ^ (7 - r.bitPos) % 2
    if r.bitPos + 1 = 8 then (bit, ⟨r.data, r.pos + 1, 0⟩)
    else (bit, ⟨r.data, r.pos, r.bitPos + 1⟩)

/-- Embeds `readBits(count)` accumulator loop: `value = (value << 1) | bit`, with
JS 32-bit semantics. -/
def readBitsAux : Nat → Int → BitReader → Int × BitReader
  | 0, acc, r => (acc, r)
  | n + 1, acc, r =>
    let (b, r2) := r.readBit
    readBitsAux n (jsOr (jsShl acc 1) ((b : Nat) : Int)) r2

/-- Embeds `readBits(count)` from src/av1/decoder.ts. -/
def BitReader.readBits (r : BitReader) (count : Nat) : Int × BitReader :=
  readBitsAux count 0 r

/-- Embeds `readUvlc(reader)` leading-zero loop, bounded by the 32-zeros bailout:
`remaining` counts down from 32 minus the zeros seen so far. -/
def readUvlcAux : Nat → BitReader → Option (Nat × BitReader)
  | 0, _ => none
  | remaining + 1, r =>
    let (b, r2) := r.readBit
    if b = 0 then readUvlcAux remaining r2
    else some (32 - (remaining + 1), r2)

/-- Embeds `readUvlc(reader)` from src/av1/decoder.ts: count leading zeros
(bailing out with `0xFFFFFFFF` at 32), then read that many bits and add
`(1 << leadingZeros) - 1`. -/
def readUvlc (r : BitReader) : Int × BitReader :=
  match readUvlcAux 32 r with
  | none =>
    -- 32 zero bits consumed: the JS loop returns the saturation sentinel
    -- after having advanced the reader over those 32 bits
    (4294967295, (r.readBits 32).2)
  | some (leadingZeros, r2) =>
    let (value, r3) := r2.readBits leadingZeros
    (value + jsShl 1 leadingZeros - 1, r3)

/-- Decoded sequence-header fields (src/av1/decoder.ts, `SequenceHeader`). -/
structure SequenceHeader where
  seqProfile : Int
  stillPicture : Bool
  reducedStillPictureHeader : Bool
  maxFrameWidth : Int
  maxFrameHeight : Int
  bitDepth : Int
  monochrome : Bool
  colorSpace : Int
  subX : Int
  subY : Int
  matrixCoefficients : Int
  colorRange : Bool
deriving DecidableEq, Repr

/-- The operating-points loop of the full (non-reduced) branch. -/
def opLoop : Nat → Bool → Bool → BitReader → BitReader
  | 0, _, _, r => r
  | n + 1, dm, idd, r =>
    let (_idc, r) := r.readBits 12
    let (seqLevelIdx, r) := r.readBits 5
    let r := if 7 < seqLevelIdx then (r.readBit).2 else r
    let r :=
      if dm then
        let (p, r) := r.readBit
        if p = 1 then
          let (_, r) := r.readBits 5
          let (_, r) := r.readBits 5
          (r.readBit).2
        else r
      else r
    let r :=
      if idd then
        let (p, r) := r.readBit
        if p = 1 then (r.readBits 4).2 else r
      else r
    opLoop n dm idd r

/-- The frame-size reads shared by both branches of `parseSequenceHeader`:
4-bit `frame_width_bits_minus_1` and `frame_height_bits_minus_1`, then
width/height fields of those bit-widths, each returned as value + 1. -/
def frameSizeReads (r : BitReader) : Int × Int × BitReader :=
  let s1 := r.readBits 4
  let frameWidthBits := s1.1 + 1
  let s2 := s1.2.readBits 4
  let frameHeightBits := s2.1 + 1
  let s3 := s2.2.readBits frameWidthBits.toNat
  let s4 := s3.2.readBits frameHeightBits.toNat
  (s3.1 + 1, s4.1 + 1, s4.2)

/-- The `reduced_still_picture_header` branch of the frame-size reads in
`parseSequenceHeader`: 5-bit level index, then the frame-size fields. -/
def reducedBranch (r3 : BitReader) : Int × Int × BitReader :=
  frameSizeReads (r3.readBits 5).2

/-- The full (non-reduced) branch of the frame-size reads in
`parseSequenceHeader`: timing info, decoder model, operating points, then
the frame-size fields. -/
def fullBranch (r3 : BitReader) : Int × Int × BitReader :=
  let s0 := r3.readBit
  let rb :=
    if s0.1 = 1 then
      let t0 := s0.2.readBits 32
      let t1 := t0.2.readBits 32
      let t2 := t1.2.readBit
      if t2.1 = 1 then (readUvlc t2.2).2 else t2.2
    else s0.2
  let s1 := rb.readBit
  let rd :=
    if s1.1 = 1 then
      let t0 := s1.2.readBits 5
      let t1 := t0.2.readBits 32
      let t2 := t1.2.readBits 5
      let t3 := t2.2.readBits 5
      t3.2
    else s1.2
  let s2 := rd.readBit
  let s3 := s2.2.readBits 5
  let rg := opLoop (s3.1.toNat + 1) (s1.1 = 1) (s2.1 = 1) s3.2
  frameSizeReads rg

/-- The reads after the frame-size fields in the non-reduced case of
`parseSequenceHeader` (frame-id numbers and the three trailing flags). -/
def postSizeReads (r4 : BitReader) : BitReader :=
  let s0 := r4.readBit
  let rb :=
    if s0.1 = 1 then
      let t0 := s0.2.readBits 4
      (t0.2.readBits 3).2
    else s0.2
  let s1 := rb.readBit
  let s2 := s1.2.readBit
  let s3 := s2.2.readBit
  s3.2

/-- Embeds `parseSequenceHeader(data)` from src/av1/decoder.ts. -/
def parseSequenceHeader (data : List Nat) : SequenceHeader :=
  let r0 : BitReader := ⟨data, 0, 0⟩
  let s0 := r0.readBits 3
  let seqProfile := s0.1
  let s1 := s0.2.readBit
  let stillPicture := s1.1 = 1
  let s2 := s1.2.readBit
  let reduced := s2.1 = 1
  let whr := if reduced then reducedBranch s2.2 else fullBranch s2.2
  let maxFrameWidth := whr.1
  let maxFrameHeight := whr.2.1
  let highBitdepth := false
  let twelveBit := false
  let monochrome := false
  let colorSpace : Int := 0
  let subX : Int := 1
  let subY : Int := 1
  let matrixCoefficients : Int := 0
  let colorRange := false
  let _r5 := if reduced then whr.2.2 else postSizeReads whr.2.2
  let bitDepth : Int :=
    if seqProfile = 2 ∧ highBitdepth then (if twelveBit then 12 else 10)
    else if 2 ≤ seqProfile then 10
    else if highBitdepth then 10 else 8
  ⟨seqProfile, stillPicture, reduced, maxFrameWidth, maxFrameHeight, bitDepth,
    monochrome, colorSpace, subX, subY, matrixCoefficients, colorRange⟩

/-- Embeds `decodeFrame(data, seqHeader)` from src/av1/decoder.ts: a placeholder
gray RGBA raster (the loop writes 128,128,128,255 for every pixel). -/
def decodeFrame (_data : List Nat) (seqHeader : SequenceHeader) : List Nat :=
  List.flatten (List.replicate ((seqHeader.maxFrameWidth * seqHeader.maxFrameHeight).toNat)
    [128, 128, 128, 255])

/-- Embeds `AvifImageData` (src/types.ts). -/
structure AvifImageData where
  data : List Nat
  width : Int
  height : Int
  hasAlpha : Bool
  bitDepth : Int
deriving DecidableEq, Repr

/-- Error kinds of `decodeAV1`. -/
inductive Av1Err where
  | obuError
  | noSequenceHeader
  | noFrame
deriving DecidableEq, Repr

/-- Embeds `decodeAV1(data)` from src/av1/decoder.ts.  `OBUType.SEQUENCE_HEADER`
is 1 and `OBUType.FRAME` is 6 (src/types.ts). -/
def decodeAV1 (fuel : Nat) (data : List Nat) : Res Av1Err AvifImageData :=
  match parseOBUs fuel data with
  | .spin => .spin
  | .err _ => .err .obuError
  | .ok obus =>
    match obus.find? (fun o => o.type == 1) with
    | none => .err .noSequenceHeader
    | some seqHeaderOBU =>
      let seqHeader := parseSequenceHeader seqHeaderOBU.data
      match obus.find? (fun o => o.type == 6) with
      | none => .err .noFrame
      | some frameOBU =>
        let pixels := decodeFrame frameOBU.data seqHeader
        .ok ⟨pixels, seqHeader.maxFrameWidth, seqHeader.maxFrameHeight, false,
          seqHeader.bitDepth⟩

/-! ## Bit-level specification tools for the sequence-header decoder -/

/-- MSB-first bit list of a value at a given width. -/
def bitsOfNat : Nat → Nat → List Nat
  | 0, _ => []
  | w + 1, v => bitsOfNat w (v / 2) ++ [v % 2]

/-- Value of an MSB-first bit list. -/
def bitsVal (bs : List Nat) : Nat := bs.foldl (fun a b => 2 * a + b) 0

/-- Pack an MSB-first bit list into bytes, zero-padding the final byte. -/
def bytesFromBits (bs : List Nat) : List Nat :=
  if h : bs = [] then []
  else bitsVal (bs.take 8 ++ List.replicate (8 - (bs.take 8).length) 0) ::
    bytesFromBits (bs.drop 8)
termination_by bs.length
decreasing_by
  have hlen : 0 < bs.length := List.length_pos.mpr h
  simp only [List.length_drop]
  omega

/-- Zero-pad a bit list to a whole number of bytes. -/
def padBits (bs : List Nat) : List Nat :=
  bs ++ List.replicate ((8 - bs.length % 8) % 8) 0

theorem bitsVal_foldl (bs : List Nat) : ∀ a : Nat,
    bs.foldl (fun x b => 2 * x + b) a = a * 2 ^ bs.length + bitsVal bs := by
  induction bs with
  | nil =>
    intro a
    simp [bitsVal]
  | cons b rest ih =>
    intro a
    have h1 : (b :: rest).foldl (fun x b => 2 * x + b) a
        = rest.foldl (fun x b => 2 * x + b) (2 * a + b) := rfl
    have h3 : bitsVal (b :: rest) = (2 * 0 + b) * 2 ^ rest.length + bitsVal rest := by
      rw [bitsVal]
      show rest.foldl (fun x b => 2 * x + b) (2 * 0 + b) = _
      rw [ih (2 * 0 + b)]
    rw [h1, ih (2 * a + b), h3]
    simp only [List.length_cons, pow_succ]
    ring

theorem bitsVal_cons (b : Nat) (rest : List Nat) :
    bitsVal (b :: rest) = b * 2 ^ rest.length + bitsVal rest := by
  have h := bitsVal_foldl rest b
  rw [bitsVal]
  show rest.foldl (fun x b => 2 * x + b) (2 * 0 + b) = _
  simpa using h

theorem bitsVal_lt (bs : List Nat) (hb : ∀ b ∈ bs, b < 2) : bitsVal bs < 2 ^ bs.length := by
  induction bs with
  | nil => simp [bitsVal]
  | cons b rest ih =>
    rw [bitsVal_cons]
    have hb2 : b < 2 := hb b (by simp)
    have hr := ih (fun x hx => hb x (by simp [hx]))
    have h1 : b * 2 ^ rest.length ≤ 1 * 2 ^ rest.length :=
      Nat.mul_le_mul_right _ (by omega)
    simp [List.length_cons, pow_succ]
    omega

theorem bitsOfNat_length (w v : Nat) : (bitsOfNat w v).length = w := by
  induction w generalizing v with
  | zero => rfl
  | succ n ih =>
    rw [bitsOfNat]
    simp [ih]

theorem bitsOfNat_lt_two (w v : Nat) : ∀ b ∈ bitsOfNat w v, b < 2 := by
  induction w generalizing v with
  | zero =>
    intro b hb
    simp [bitsOfNat] at hb
  | succ n ih =>
    intro b hb
    rw [bitsOfNat] at hb
    rcases List.mem_append.mp hb with h | h
    · exact ih (v / 2) b h
    · simp at h
      omega

theorem bitsVal_bitsOfNat (w v : Nat) (hv : v < 2 ^ w) : bitsVal (bitsOfNat w v) = v := by
  induction w generalizing v with
  | zero =>
    have : v = 0 := by simpa using hv
    simp [this, bitsOfNat, bitsVal]
  | succ n ih =>
    rw [bitsOfNat, bitsVal, List.foldl_append]
    have h1 : (bitsOfNat n (v / 2)).foldl (fun a b => 2 * a + b) 0 = v / 2 := by
      have : v / 2 < 2 ^ n := by
        rw [pow_succ] at hv
        omega
      exact ih (v / 2) this
    rw [show ((bitsOfNat n (v / 2)).foldl (fun a b => 2 * a + b) 0) = bitsVal (bitsOfNat n (v / 2)) from rfl] at h1 ⊢
    rw [h1]
    simp
    omega

theorem getD_drop (l : List Nat) (n i : Nat) : (l.drop n).getD i 0 = l.getD (n + i) 0 := by
  rw [List.getD_eq_getElem?_getD, List.getD_eq_getElem?_getD, List.getElem?_drop]

theorem getD_take (l : List Nat) (n i : Nat) (h : i < n) :
    (l.take n).getD i 0 = l.getD i 0 := by
  rw [List.getD_eq_getElem?_getD, List.getD_eq_getElem?_getD, List.getElem?_take, if_pos h]

theorem bytesFromBits_length : ∀ k bs, bs.length = 8 * k → (bytesFromBits bs).length = k := by
  intro k
  induction k with
  | zero =>
    intro bs h
    have hnil : bs = [] := List.eq_nil_of_length_eq_zero (by omega)
    rw [hnil, bytesFromBits]
    simp
  | succ n ih =>
    intro bs h
    have hne : bs ≠ [] := by
      intro e
      rw [e] at h
      simp at h
    rw [bytesFromBits, dif_neg hne]
    simp only [List.length_cons]
    rw [ih (bs.drop 8) (by rw [List.length_drop]; omega)]

theorem bytesFromBits_getD : ∀ k bs i, bs.length = 8 * k → i < k →
    (bytesFromBits bs).getD i 0 = bitsVal ((bs.drop (8 * i)).take 8) := by
  intro k
  induction k with
  | zero =>
    intro bs i h hik
    omega
  | succ n ih =>
    intro bs i h hik
    have hne : bs ≠ [] := by
      intro e
      rw [e] at h
      simp at h
    rw [bytesFromBits, dif_neg hne]
    cases i with
    | zero =>
      rw [List.getD_cons_zero]
      have htl : (bs.take 8).length = 8 := by
        rw [List.length_take]
        omega
      rw [htl]
      simp
    | succ j =>
      rw [List.getD_cons_succ, ih (bs.drop 8) j (by rw [List.length_drop]; omega) (by omega),
        List.drop_drop]
      have hidx : 8 + 8 * j = 8 * (j + 1) := by ring
      rw [hidx]

theorem bitsVal_div_mod : ∀ c : List Nat, (∀ b ∈ c, b < 2) → ∀ j, j < c.length →
    bitsVal c / 2 ^ (c.length - 1 - j) % 2 = c.getD j 0 := by
  intro c
  induction c with
  | nil =>
    intro _ j hj
    simp at hj
  | cons b rest ih =>
    intro hb j hj
    rw [bitsVal_cons]
    cases j with
    | zero =>
      rw [List.getD_cons_zero]
      simp only [List.length_cons]
      have hlen : rest.length + 1 - 1 - 0 = rest.length := by omega
      rw [hlen]
      have hr : bitsVal rest < 2 ^ rest.length :=
        bitsVal_lt rest (fun x hx => hb x (by simp [hx]))
      have hdiv : (b * 2 ^ rest.length + bitsVal rest) / 2 ^ rest.length = b := by
        rw [Nat.add_comm, Nat.mul_comm, Nat.add_mul_div_left _ _ (by positivity),
          Nat.div_eq_of_lt hr]
        omega
      rw [hdiv, Nat.mod_eq_of_lt (hb b (by simp))]
    | succ j2 =>
      rw [List.getD_cons_succ]
      simp only [List.length_cons]
      have hidx : rest.length + 1 - 1 - (j2 + 1) = rest.length - 1 - j2 := by omega
      rw [hidx]
      have hj2 : j2 < rest.length := by
        simp only [List.length_cons] at hj
        omega
      have hsplit : b * 2 ^ rest.length = 2 ^ (rest.length - 1 - j2) * (b * 2 ^ (j2 + 1)) := by
        have hexp : rest.length - 1 - j2 + (j2 + 1) = rest.length := by omega
        calc b * 2 ^ rest.length = b * (2 ^ (rest.length - 1 - j2) * 2 ^ (j2 + 1)) := by
              rw [← pow_add, hexp]
        _ = 2 ^ (rest.length - 1 - j2) * (b * 2 ^ (j2 + 1)) := by ring
      have hdiv : (b * 2 ^ rest.length + bitsVal rest) / 2 ^ (rest.length - 1 - j2)
          = bitsVal rest / 2 ^ (rest.length - 1 - j2) + b * 2 ^ (j2 + 1) := by
        rw [hsplit, Nat.add_comm, Nat.add_mul_div_left _ _ (by positivity)]
      rw [hdiv]
      have heven : b * 2 ^ (j2 + 1) = 2 * (b * 2 ^ j2) := by
        rw [pow_succ]
        ring
      rw [heven, Nat.add_mul_mod_self_left]
      exact ih (fun x hx => hb x (by simp [hx])) j2 hj2

theorem getD_mem0 (l : List Nat) (n : Nat) (h : n < l.length) : l.getD n 0 ∈ l := by
  rw [List.getD_eq_getElem?_getD, List.getElem?_eq_getElem h]
  exact List.getElem_mem h

/-- The `BitReader` state sitting at absolute bit position `p` over the
packed form of a bit list. -/
def readerAt (bs : List Nat) (p : Nat) : BitReader :=
  ⟨bytesFromBits bs, p / 8, p % 8⟩


theorem jsOr_comm (a b : Int) : jsOr a b = jsOr b a := by
  unfold jsOr
  congr 1
  congr 1
  exact Nat.lor_comm _ _

/-- The JS `value = (value << 1) | bit` step in `readBits`. -/
theorem js_shift_or_bit (a b : Nat) (hb : b < 2) (h : 2 * a + b < 2 ^ 31) :
    jsOr (jsShl (a : Int) 1) ((b : Nat) : Int) = ((2 * a + b : Nat) : Int) := by
  have heq : b + a * 2 ^ 1 = 2 * a + b := by ring
  have ha2 : a * 2 ^ 1 < 2 ^ 31 := by
    have h2 : a * 2 ^ 1 = 2 * a := by ring
    rw [h2]
    exact lt_of_le_of_lt (Nat.le_add_right _ b) h
  have hba : b + a * 2 ^ 1 < 2 ^ 31 := by
    rw [heq]
    exact h
  have hb1 : b < 2 ^ 1 := by simpa using hb
  rw [jsShl_group a 1 ha2, jsOr_comm, jsOr_acc b a 1 hb1 hba, heq]

/-- Embeds `readBit` over a packed bit list reads bit `p` and advances to `p+1`. -/
theorem readBit_spec (bs : List Nat) (k p : Nat) (hlen : bs.length = 8 * k)
    (hbits : ∀ b ∈ bs, b < 2) (hp : p < bs.length) :
    (readerAt bs p).readBit = (bs.getD p 0, readerAt bs (p + 1)) := by
  have hblen : (bytesFromBits bs).length = k := bytesFromBits_length k bs hlen
  have hppos : p / 8 < k := by omega
  have hbyte : (bytesFromBits bs).getD (p / 8) 0 = bitsVal ((bs.drop (8 * (p / 8))).take 8) :=
    bytesFromBits_getD k bs (p / 8) hlen hppos
  set c := (bs.drop (8 * (p / 8))).take 8 with hc
  have hclen : c.length = 8 := by
    rw [hc, List.length_take, List.length_drop]
    omega
  have hcbits : ∀ b ∈ c, b < 2 := by
    intro b hb
    exact hbits b (List.drop_subset _ _ (List.take_subset _ _ hb))
  have hbit : bitsVal c / 2 ^ (7 - p % 8) % 2 = c.getD (p % 8) 0 := by
    have h7 : 7 - p % 8 = c.length - 1 - p % 8 := by
      rw [hclen]
    rw [h7]
    exact bitsVal_div_mod c hcbits (p % 8) (by rw [hclen]; omega)
  have hcgetD : c.getD (p % 8) 0 = bs.getD p 0 := by
    rw [hc, getD_take _ _ _ (by omega), getD_drop]
    congr 1
    omega
  have hfull : (bytesFromBits bs).getD (p / 8) 0 / 2 ^ (7 - p % 8) % 2 = bs.getD p 0 := by
    rw [hbyte, hbit, hcgetD]
  unfold readerAt BitReader.readBit
  dsimp only []
  rw [if_neg (by rw [hblen]; omega)]
  by_cases h8 : p % 8 + 1 = 8
  · rw [if_pos h8, hfull]
    have e1 : (p + 1) / 8 = p / 8 + 1 := by omega
    have e2 : (p + 1) % 8 = 0 := by omega
    rw [e1, e2]
  · rw [if_neg h8, hfull]
    have e1 : (p + 1) / 8 = p / 8 := by omega
    have e2 : (p + 1) % 8 = p % 8 + 1 := by omega
    rw [e1, e2]

/-- Embeds `readBits` accumulator loop over a packed bit list reads the `n` bits at
position `p` MSB-first. -/
theorem readBitsAux_spec (bs : List Nat) (k : Nat) (hlen : bs.length = 8 * k)
    (hbits : ∀ b ∈ bs, b < 2) :
    ∀ n p acc : Nat, p + n ≤ bs.length →
      acc * 2 ^ n + bitsVal ((bs.drop p).take n) < 2 ^ 31 →
      readBitsAux n (acc : Int) (readerAt bs p)
        = (((acc * 2 ^ n + bitsVal ((bs.drop p).take n) : Nat) : Int), readerAt bs (p + n)) := by
  intro n
  induction n with
  | zero =>
    intro p acc hpn hbound
    simp [readBitsAux, bitsVal]
  | succ m ih =>
    intro p acc hpn hbound
    have hp : p < bs.length := by omega
    have hpn2 : p + 1 + m ≤ bs.length := by omega
    have hadv : p + 1 + m = p + (m + 1) := by omega
    have hrestlen : ((bs.drop (p + 1)).take m).length = m := by
      rw [List.length_take, List.length_drop]
      omega
    have hgetD : bs.getD p 0 = bs[p] := by
      rw [List.getD_eq_getElem?_getD, List.getElem?_eq_getElem hp]
      rfl
    have hchunk : (bs.drop p).take (m + 1) = bs.getD p 0 :: (bs.drop (p + 1)).take m := by
      rw [List.drop_eq_getElem_cons hp, List.take_succ_cons, hgetD]
    have hval : bitsVal ((bs.drop p).take (m + 1))
        = bs.getD p 0 * 2 ^ m + bitsVal ((bs.drop (p + 1)).take m) := by
      rw [hchunk, bitsVal_cons, hrestlen]
    have hb2 : bs.getD p 0 < 2 := hbits _ (getD_mem0 bs p hp)
    have hsum : (2 * acc + bs.getD p 0) * 2 ^ m + bitsVal ((bs.drop (p + 1)).take m)
        = acc * 2 ^ (m + 1) + bitsVal ((bs.drop p).take (m + 1)) := by
      rw [hval, pow_succ]
      ring
    have hsmall : 2 * acc + bs.getD p 0 < 2 ^ 31 := by
      calc 2 * acc + bs.getD p 0 ≤ (2 * acc + bs.getD p 0) * 2 ^ m :=
            Nat.le_mul_of_pos_right _ (by positivity)
      _ ≤ (2 * acc + bs.getD p 0) * 2 ^ m + bitsVal ((bs.drop (p + 1)).take m) :=
            Nat.le_add_right _ _
      _ = acc * 2 ^ (m + 1) + bitsVal ((bs.drop p).take (m + 1)) := hsum
      _ < 2 ^ 31 := hbound
    rw [readBitsAux, readBit_spec bs k p hlen hbits hp]
    dsimp only []
    rw [js_shift_or_bit acc (bs.getD p 0) hb2 hsmall]
    rw [ih (p + 1) (2 * acc + bs.getD p 0) hpn2 (by rw [hsum]; exact hbound)]
    rw [hsum, hadv]

/-- Embeds `BitReader.readBits` over a packed bit list, starting from accumulator
zero. -/
theorem readBits_spec (bs : List Nat) (k : Nat) (hlen : bs.length = 8 * k)
    (hbits : ∀ b ∈ bs, b < 2) (n p : Nat) (hpn : p + n ≤ bs.length)
    (hbound : bitsVal ((bs.drop p).take n) < 2 ^ 31) :
    (readerAt bs p).readBits n
      = (((bitsVal ((bs.drop p).take n) : Nat) : Int), readerAt bs (p + n)) := by
  rw [BitReader.readBits]
  have h := readBitsAux_spec bs k hlen hbits n p 0 hpn
    (by simpa using hbound)
  rw [show (0 : Int) = ((0 : Nat) : Int) from rfl, h]
  norm_num

theorem dropStep (f rest : List Nat) (n : Nat) (h : f.length = n) :
    (f ++ rest).drop n = rest := by
  rw [← h]
  exact List.drop_left f rest

theorem takeStep (f rest : List Nat) (n : Nat) (h : f.length = n) :
    (f ++ rest).take n = f := by
  rw [← h]
  exact List.take_left f rest

theorem dropAdd (l : List Nat) (m n : Nat) : l.drop (m + n) = (l.drop m).drop n := by
  rw [List.drop_drop, Nat.add_comm]

theorem padBits_len (bs : List Nat) :
    (padBits bs).length = bs.length + (8 - bs.length % 8) % 8 := by
  simp [padBits]

theorem padBits_len8 (bs : List Nat) :
    ∃ k, (padBits bs).length = 8 * k := by
  refine ⟨(bs.length + (8 - bs.length % 8) % 8) / 8, ?_⟩
  rw [padBits_len]
  omega

theorem padBits_bits (bs : List Nat) (h : ∀ b ∈ bs, b < 2) :
    ∀ b ∈ padBits bs, b < 2 := by
  intro b hb
  rcases List.mem_append.mp hb with h2 | h2
  · exact h b h2
  · have := List.eq_of_mem_replicate h2
    omega

theorem bits_append (l1 l2 : List Nat) (h1 : ∀ b ∈ l1, b < 2) (h2 : ∀ b ∈ l2, b < 2) :
    ∀ b ∈ l1 ++ l2, b < 2 := by
  intro b hb
  rcases List.mem_append.mp hb with h | h
  · exact h1 b h
  · exact h2 b h

theorem getD_of_chunk (l : List Nat) (p b : Nat) (h : (l.drop p).take 1 = [b]) :
    l.getD p 0 = b := by
  have h1 : l.getD (p + 0) 0 = (l.drop p).getD 0 0 := (getD_drop l p 0).symm
  have h2 : ((l.drop p).take 1).getD 0 0 = (l.drop p).getD 0 0 :=
    getD_take _ _ _ (by omega)
  rw [h] at h2
  have h3 : l.getD p 0 = (l.drop p).getD 0 0 := by simpa using h1
  rw [h3, ← h2]
  rfl

/-- Symbolic evaluation of `frameSizeReads`, with the individual bit reads
given as hypotheses. -/
theorem frameSizeReads_eval (r rA rB rW rH : BitReader)
    (wm1 hm1 wv hv : Nat)
    (h4 : r.readBits 4 = ((wm1 : Int), rA))
    (h5 : rA.readBits 4 = ((hm1 : Int), rB))
    (h6 : rB.readBits (wm1 + 1) = ((wv : Int), rW))
    (h7 : rW.readBits (hm1 + 1) = ((hv : Int), rH)) :
    frameSizeReads r = ((wv : Int) + 1, (hv : Int) + 1, rH) := by
  have htnw : (((wm1 : Int)) + 1).toNat = wm1 + 1 := by omega
  have htnh : (((hm1 : Int)) + 1).toNat = hm1 + 1 := by omega
  unfold frameSizeReads
  dsimp only []
  rw [h4]
  dsimp only []
  rw [h5]
  dsimp only []
  rw [htnw, h6]
  dsimp only []
  rw [htnh, h7]

/-- Symbolic evaluation of `reducedBranch`, with the individual bit reads
given as hypotheses. -/
theorem reducedBranch_eval (r3 r10 r14 r18 rW rH : BitReader)
    (level wm1 hm1 wv hv : Nat)
    (h3 : r3.readBits 5 = ((level : Int), r10))
    (h4 : r10.readBits 4 = ((wm1 : Int), r14))
    (h5 : r14.readBits 4 = ((hm1 : Int), r18))
    (h6 : r18.readBits (wm1 + 1) = ((wv : Int), rW))
    (h7 : rW.readBits (hm1 + 1) = ((hv : Int), rH)) :
    reducedBranch r3 = ((wv : Int) + 1, (hv : Int) + 1, rH) := by
  unfold reducedBranch
  rw [h3]
  exact frameSizeReads_eval r10 r14 r18 rW rH wm1 hm1 wv hv h4 h5 h6 h7

/-- Symbolic evaluation of `parseSequenceHeader` along the reduced branch,
with the header-level bit reads given as hypotheses. -/
theorem parseSequenceHeader_eval (d : List Nat) (profile still : Nat)
    (r1 r2 r3 : BitReader) (W H : Int) (r4 : BitReader)
    (h0 : (⟨d, 0, 0⟩ : BitReader).readBits 3 = ((profile : Int), r1))
    (h1 : r1.readBit = (still, r2))
    (h2 : r2.readBit = (1, r3))
    (hbr : reducedBranch r3 = (W, H, r4)) :
    parseSequenceHeader d
      = ⟨(profile : Int), decide (still = 1), decide ((1 : Nat) = 1),
         W, H,
         (if (profile : Int) = 2 ∧ false = true then (if false = true then 12 else 10)
          else if 2 ≤ (profile : Int) then 10 else if false = true then 10 else 8),
         false, 0, 1, 1, 0, false⟩ := by
  unfold parseSequenceHeader
  dsimp only []
  rw [h0]
  dsimp only []
  rw [h1]
  dsimp only []
  rw [h2]
  dsimp only []
  rw [if_pos (show (1 : Nat) = 1 from rfl)]
  rw [hbr]

/-- C7: in the reduced-still-picture branch, after the 5-bit level index the
decoder reads 4-bit width/height bit-count fields and then width/height
fields of exactly those widths, each interpreted as value + 1. -/
theorem C7_reduced_header_geometry
    (profile still level wm1 hm1 wv hv : Nat) (L : List Nat)
    (hL : L = bitsOfNat 3 profile ++ (bitsOfNat 1 still ++ ([1] ++ (bitsOfNat 5 level ++
      (bitsOfNat 4 wm1 ++ (bitsOfNat 4 hm1 ++
        (bitsOfNat (wm1 + 1) wv ++ bitsOfNat (hm1 + 1) hv)))))))
    (hprofile : profile < 8) (hstill : still < 2) (hlevel : level < 32)
    (hwm1 : wm1 < 16) (hhm1 : hm1 < 16)
    (hwv : wv < 2 ^ (wm1 + 1)) (hhv : hv < 2 ^ (hm1 + 1)) :
    (parseSequenceHeader (bytesFromBits (padBits L))).reducedStillPictureHeader = true ∧
    (parseSequenceHeader (bytesFromBits (padBits L))).maxFrameWidth = (wv : Int) + 1 ∧
    (parseSequenceHeader (bytesFromBits (padBits L))).maxFrameHeight = (hv : Int) + 1 := by
  set bs := padBits L with hbsdef
  obtain ⟨k, hk⟩ := padBits_len8 L
  rw [← hbsdef] at hk
  have hf2 : bitsOfNat 1 still = [still] := by
    rw [show bitsOfNat 1 still = [still % 2] from rfl, Nat.mod_eq_of_lt hstill]
  have hLlen : L.length = 20 + wm1 + hm1 := by
    rw [hL]
    simp [bitsOfNat_length]
    omega
  have hbslen : 20 + wm1 + hm1 ≤ bs.length := by
    rw [hbsdef, padBits_len, hLlen]
    omega
  have hbits : ∀ b ∈ bs, b < 2 := by
    rw [hbsdef]
    refine padBits_bits L ?_
    rw [hL]
    refine bits_append _ _ (bitsOfNat_lt_two 3 profile) ?_
    refine bits_append _ _ (bitsOfNat_lt_two 1 still) ?_
    refine bits_append _ _ (by intro b hb; simp at hb; omega) ?_
    refine bits_append _ _ (bitsOfNat_lt_two 5 level) ?_
    refine bits_append _ _ (bitsOfNat_lt_two 4 wm1) ?_
    refine bits_append _ _ (bitsOfNat_lt_two 4 hm1) ?_
    exact bits_append _ _ (bitsOfNat_lt_two (wm1 + 1) wv) (bitsOfNat_lt_two (hm1 + 1) hv)
  have hbs : bs = bitsOfNat 3 profile ++ (bitsOfNat 1 still ++ ([1] ++ (bitsOfNat 5 level ++
      (bitsOfNat 4 wm1 ++ (bitsOfNat 4 hm1 ++ (bitsOfNat (wm1 + 1) wv ++
        (bitsOfNat (hm1 + 1) hv ++ List.replicate ((8 - L.length % 8) % 8) 0))))))) := by
    rw [hbsdef, padBits, hL]
    simp [List.append_assoc]
  have hd1 : bs.drop 3 = bitsOfNat 1 still ++ ([1] ++ (bitsOfNat 5 level ++
      (bitsOfNat 4 wm1 ++ (bitsOfNat 4 hm1 ++ (bitsOfNat (wm1 + 1) wv ++
        (bitsOfNat (hm1 + 1) hv ++ List.replicate ((8 - L.length % 8) % 8) 0)))))) := by
    rw [hbs]
    exact dropStep _ _ _ (bitsOfNat_length 3 profile)
  have hd2 : bs.drop 4 = [1] ++ (bitsOfNat 5 level ++
      (bitsOfNat 4 wm1 ++ (bitsOfNat 4 hm1 ++ (bitsOfNat (wm1 + 1) wv ++
        (bitsOfNat (hm1 + 1) hv ++ List.replicate ((8 - L.length % 8) % 8) 0))))) := by
    rw [show (4 : Nat) = 3 + 1 from rfl, dropAdd, hd1]
    exact dropStep _ _ _ (by rw [hf2]; rfl)
  have hd3 : bs.drop 5 = bitsOfNat 5 level ++
      (bitsOfNat 4 wm1 ++ (bitsOfNat 4 hm1 ++ (bitsOfNat (wm1 + 1) wv ++
        (bitsOfNat (hm1 + 1) hv ++ List.replicate ((8 - L.length % 8) % 8) 0)))) := by
    rw [show (5 : Nat) = 4 + 1 from rfl, dropAdd, hd2]
    rfl
  have hd4 : bs.drop 10 = bitsOfNat 4 wm1 ++ (bitsOfNat 4 hm1 ++ (bitsOfNat (wm1 + 1) wv ++
      (bitsOfNat (hm1 + 1) hv ++ List.replicate ((8 - L.length % 8) % 8) 0))) := by
    rw [show (10 : Nat) = 5 + 5 from rfl, dropAdd, hd3]
    exact dropStep _ _ _ (bitsOfNat_length 5 level)
  have hd5 : bs.drop 14 = bitsOfNat 4 hm1 ++ (bitsOfNat (wm1 + 1) wv ++
      (bitsOfNat (hm1 + 1) hv ++ List.replicate ((8 - L.length % 8) % 8) 0)) := by
    rw [show (14 : Nat) = 10 + 4 from rfl, dropAdd, hd4]
    exact dropStep _ _ _ (bitsOfNat_length 4 wm1)
  have hd6 : bs.drop 18 = bitsOfNat (wm1 + 1) wv ++
      (bitsOfNat (hm1 + 1) hv ++ List.replicate ((8 - L.length % 8) % 8) 0) := by
    rw [show (18 : Nat) = 14 + 4 from rfl, dropAdd, hd5]
    exact dropStep _ _ _ (bitsOfNat_length 4 hm1)
  have hd7 : bs.drop (18 + (wm1 + 1)) = bitsOfNat (hm1 + 1) hv ++
      List.replicate ((8 - L.length % 8) % 8) 0 := by
    rw [dropAdd, hd6]
    exact dropStep _ _ _ (bitsOfNat_length (wm1 + 1) wv)
  have hc0 : (bs.drop 0).take 3 = bitsOfNat 3 profile := by
    rw [List.drop_zero, hbs]
    exact takeStep _ _ _ (bitsOfNat_length 3 profile)
  have hc1 : (bs.drop 3).take 1 = [still] := by
    rw [hd1, ← hf2]
    exact takeStep _ _ _ (bitsOfNat_length 1 still)
  have hc2 : (bs.drop 4).take 1 = [1] := by
    rw [hd2]
    exact takeStep _ _ _ rfl
  have hc3 : (bs.drop 5).take 5 = bitsOfNat 5 level := by
    rw [hd3]
    exact takeStep _ _ _ (bitsOfNat_length 5 level)
  have hc4 : (bs.drop 10).take 4 = bitsOfNat 4 wm1 := by
    rw [hd4]
    exact takeStep _ _ _ (bitsOfNat_length 4 wm1)
  have hc5 : (bs.drop 14).take 4 = bitsOfNat 4 hm1 := by
    rw [hd5]
    exact takeStep _ _ _ (bitsOfNat_length 4 hm1)
  have hc6 : (bs.drop 18).take (wm1 + 1) = bitsOfNat (wm1 + 1) wv := by
    rw [hd6]
    exact takeStep _ _ _ (bitsOfNat_length (wm1 + 1) wv)
  have hc7 : (bs.drop (18 + (wm1 + 1))).take (hm1 + 1) = bitsOfNat (hm1 + 1) hv := by
    rw [hd7]
    exact takeStep _ _ _ (bitsOfNat_length (hm1 + 1) hv)
  have hval0 : bitsVal ((bs.drop 0).take 3) = profile := by
    rw [hc0]
    exact bitsVal_bitsOfNat 3 profile (by simpa using hprofile)
  have hval3 : bitsVal ((bs.drop 5).take 5) = level := by
    rw [hc3]
    exact bitsVal_bitsOfNat 5 level (by simpa using hlevel)
  have hval4 : bitsVal ((bs.drop 10).take 4) = wm1 := by
    rw [hc4]
    exact bitsVal_bitsOfNat 4 wm1 (by simpa using hwm1)
  have hval5 : bitsVal ((bs.drop 14).take 4) = hm1 := by
    rw [hc5]
    exact bitsVal_bitsOfNat 4 hm1 (by simpa using hhm1)
  have hval6 : bitsVal ((bs.drop 18).take (wm1 + 1)) = wv := by
    rw [hc6]
    exact bitsVal_bitsOfNat (wm1 + 1) wv hwv
  have hval7 : bitsVal ((bs.drop (18 + (wm1 + 1))).take (hm1 + 1)) = hv := by
    rw [hc7]
    exact bitsVal_bitsOfNat (hm1 + 1) hv hhv
  have hg1 : bs.getD 3 0 = still := getD_of_chunk bs 3 still hc1
  have hg2 : bs.getD 4 0 = 1 := getD_of_chunk bs 4 1 hc2
  have hb16 : (2 : Nat) ^ (wm1 + 1) ≤ 2 ^ 31 :=
    Nat.pow_le_pow_right (by norm_num) (by omega)
  have hb16h : (2 : Nat) ^ (hm1 + 1) ≤ 2 ^ 31 :=
    Nat.pow_le_pow_right (by norm_num) (by omega)
  have hr0 : (⟨bytesFromBits bs, 0, 0⟩ : BitReader) = readerAt bs 0 := rfl
  have hbnd0 : bitsVal ((bs.drop 0).take 3) < 2 ^ 31 := by
    rw [hval0]
    exact lt_of_lt_of_le hprofile (by norm_num)
  have hbnd3 : bitsVal ((bs.drop 5).take 5) < 2 ^ 31 := by
    rw [hval3]
    exact lt_of_lt_of_le hlevel (by norm_num)
  have hbnd4 : bitsVal ((bs.drop 10).take 4) < 2 ^ 31 := by
    rw [hval4]
    exact lt_of_lt_of_le hwm1 (by norm_num)
  have hbnd5 : bitsVal ((bs.drop 14).take 4) < 2 ^ 31 := by
    rw [hval5]
    exact lt_of_lt_of_le hhm1 (by norm_num)
  have hbnd6 : bitsVal ((bs.drop 18).take (wm1 + 1)) < 2 ^ 31 := by
    rw [hval6]
    exact lt_of_lt_of_le hwv hb16
  have hbnd7 : bitsVal ((bs.drop (18 + (wm1 + 1))).take (hm1 + 1)) < 2 ^ 31 := by
    rw [hval7]
    exact lt_of_lt_of_le hhv hb16h
  have hread0 : (readerAt bs 0).readBits 3 = ((profile : Int), readerAt bs 3) := by
    rw [readBits_spec bs k hk hbits 3 0 (by omega) hbnd0, hval0]
  have hread1 : (readerAt bs 3).readBit = ((still : Nat), readerAt bs 4) := by
    rw [readBit_spec bs k 3 hk hbits (by omega), hg1]
  have hread2 : (readerAt bs 4).readBit = (1, readerAt bs 5) := by
    rw [readBit_spec bs k 4 hk hbits (by omega), hg2]
  have hread3 : (readerAt bs 5).readBits 5 = ((level : Int), readerAt bs 10) := by
    rw [readBits_spec bs k hk hbits 5 5 (by omega) hbnd3, hval3]
  have hread4 : (readerAt bs 10).readBits 4 = ((wm1 : Int), readerAt bs 14) := by
    rw [readBits_spec bs k hk hbits 4 10 (by omega) hbnd4, hval4]
  have hread5 : (readerAt bs 14).readBits 4 = ((hm1 : Int), readerAt bs 18) := by
    rw [readBits_spec bs k hk hbits 4 14 (by omega) hbnd5, hval5]
  have hread6 : (readerAt bs 18).readBits (wm1 + 1)
      = ((wv : Int), readerAt bs (18 + (wm1 + 1))) := by
    rw [readBits_spec bs k hk hbits (wm1 + 1) 18 (by omega) hbnd6, hval6]
  have hread7 : (readerAt bs (18 + (wm1 + 1))).readBits (hm1 + 1)
      = ((hv : Int), readerAt bs (18 + (wm1 + 1) + (hm1 + 1))) := by
    rw [readBits_spec bs k hk hbits (hm1 + 1) (18 + (wm1 + 1)) (by omega) hbnd7, hval7]
  have hread0b : (⟨bytesFromBits bs, 0, 0⟩ : BitReader).readBits 3
      = ((profile : Int), readerAt bs 3) := by
    rw [hr0]
    exact hread0
  have hbr := reducedBranch_eval (readerAt bs 5) (readerAt bs 10) (readerAt bs 14)
    (readerAt bs 18) (readerAt bs (18 + (wm1 + 1))) (readerAt bs (18 + (wm1 + 1) + (hm1 + 1)))
    level wm1 hm1 wv hv hread3 hread4 hread5 hread6 hread7
  have hEval := parseSequenceHeader_eval (bytesFromBits bs) profile still
    (readerAt bs 3) (readerAt bs 4) (readerAt bs 5)
    ((wv : Int) + 1) ((hv : Int) + 1) (readerAt bs (18 + (wm1 + 1) + (hm1 + 1)))
    hread0b hread1 hread2 hbr
  rw [hEval]
  exact ⟨rfl, rfl, rfl⟩

theorem C7_reduced_header_geometry_witness :
    (parseSequenceHeader (bytesFromBits (padBits (bitsOfNat 3 0 ++ (bitsOfNat 1 1 ++
      ([1] ++ (bitsOfNat 5 0 ++ (bitsOfNat 4 10 ++ (bitsOfNat 4 10 ++
        (bitsOfNat (10 + 1) 1919 ++ bitsOfNat (10 + 1) 1079)))))))))).maxFrameWidth
      = (1920 : Int) ∧
    (parseSequenceHeader (bytesFromBits (padBits (bitsOfNat 3 0 ++ (bitsOfNat 1 1 ++
      ([1] ++ (bitsOfNat 5 0 ++ (bitsOfNat 4 10 ++ (bitsOfNat 4 10 ++
        (bitsOfNat (10 + 1) 1919 ++ bitsOfNat (10 + 1) 1079)))))))))).maxFrameHeight
      = (1080 : Int) ∧
    (parseSequenceHeader (bytesFromBits (padBits (bitsOfNat 3 0 ++ (bitsOfNat 1 1 ++
      ([1] ++ (bitsOfNat 5 0 ++ (bitsOfNat 4 10 ++ (bitsOfNat 4 10 ++
        (bitsOfNat (10 + 1) 1919 ++
          bitsOfNat (10 + 1) 1079)))))))))).reducedStillPictureHeader = true := by
  have h := C7_reduced_header_geometry 0 1 0 10 10 1919 1079 _ rfl (by norm_num)
    (by norm_num) (by norm_num) (by norm_num) (by norm_num) (by norm_num) (by norm_num)
  refine ⟨?_, ?_, h.1⟩
  · rw [h.2.1]
    norm_num
  · rw [h.2.2]
    norm_num

/-! ## C10: shape of the decoded frame -/

theorem readBit_fst_lt (r : BitReader) : (r.readBit).1 < 2 := by
  unfold BitReader.readBit
  by_cases h : r.data.length ≤ r.pos
  · rw [if_pos h]
    norm_num
  · rw [if_neg h]
    dsimp only []
    by_cases h8 : r.bitPos + 1 = 8
    · rw [if_pos h8]
      exact Nat.mod_lt _ (by norm_num)
    · rw [if_neg h8]
      exact Nat.mod_lt _ (by norm_num)

theorem readBitsAux_succ (n : Nat) (acc : Int) (r : BitReader) :
    readBitsAux (n + 1) acc r
      = readBitsAux n (jsOr (jsShl acc 1) (((r.readBit).1 : Nat) : Int)) (r.readBit).2 := rfl

/-- The `readBits` accumulator stays a natural number below `(acc+1) * 2^n`
whatever the underlying data, as long as that bound stays within int32
range. -/
theorem readBitsAux_bound : ∀ (n : Nat) (acc : Nat) (r : BitReader),
    (acc + 1) * 2 ^ n ≤ 2 ^ 31 →
    ∃ v : Nat, ∃ r2, readBitsAux n ((acc : Nat) : Int) r = ((v : Int), r2) ∧
      v < (acc + 1) * 2 ^ n := by
  intro n
  induction n with
  | zero =>
    intro acc r _
    exact ⟨acc, r, rfl, by simpa using Nat.lt_succ_self acc⟩
  | succ m ih =>
    intro acc r h
    have hblt : (r.readBit).1 < 2 := readBit_fst_lt r
    have hchain : (2 * acc + (r.readBit).1 + 1) * 2 ^ m ≤ 2 ^ 31 := by
      calc (2 * acc + (r.readBit).1 + 1) * 2 ^ m
          ≤ (2 * (acc + 1)) * 2 ^ m := Nat.mul_le_mul_right _ (by omega)
      _ = (acc + 1) * 2 ^ (m + 1) := by ring
      _ ≤ 2 ^ 31 := h
    have h2 : 2 * acc + (r.readBit).1 < 2 ^ 31 :=
      lt_of_lt_of_le (lt_of_lt_of_le (Nat.lt_succ_self _)
        (Nat.le_mul_of_pos_right _ (by positivity))) hchain
    have hstep : readBitsAux (m + 1) ((acc : Nat) : Int) r
        = readBitsAux m (((2 * acc + (r.readBit).1 : Nat) : Int)) (r.readBit).2 := by
      rw [readBitsAux_succ, js_shift_or_bit acc (r.readBit).1 hblt h2]
    obtain ⟨v, r2, hv, hvb⟩ := ih (2 * acc + (r.readBit).1) (r.readBit).2 hchain
    refine ⟨v, r2, ?_, ?_⟩
    · rw [hstep]
      exact hv
    · calc v < (2 * acc + (r.readBit).1 + 1) * 2 ^ m := hvb
      _ ≤ (2 * (acc + 1)) * 2 ^ m := Nat.mul_le_mul_right _ (by omega)
      _ = (acc + 1) * 2 ^ (m + 1) := by ring

/-- A `readBits` of at most 31 bits always yields a natural number below
`2^n`. -/
theorem readBits_bound (r : BitReader) (n : Nat) (hn : n ≤ 31) :
    ∃ v : Nat, ∃ r2, r.readBits n = ((v : Int), r2) ∧ v < 2 ^ n := by
  have h1 : (0 + 1) * 2 ^ n ≤ 2 ^ 31 := by
    simpa using Nat.pow_le_pow_right (by norm_num) hn
  obtain ⟨v, r2, hv, hb⟩ := readBitsAux_bound n 0 r h1
  refine ⟨v, r2, ?_, by simpa using hb⟩
  rw [BitReader.readBits, show (0 : Int) = ((0 : Nat) : Int) from rfl]
  exact hv

/-- The frame-size fields always decode to width and height at least 1. -/
theorem frameSizeReads_pos (r : BitReader) :
    1 ≤ (frameSizeReads r).1 ∧ 1 ≤ (frameSizeReads r).2.1 := by
  obtain ⟨a, rA, hA, hAb⟩ := readBits_bound r 4 (by norm_num)
  obtain ⟨b, rB, hB, hBb⟩ := readBits_bound rA 4 (by norm_num)
  have ha16 : a < 16 := by simpa using hAb
  have hb16 : b < 16 := by simpa using hBb
  obtain ⟨wv, rW, hW, -⟩ := readBits_bound rB (a + 1) (by omega)
  obtain ⟨hvv, rH, hH, -⟩ := readBits_bound rW (b + 1) (by omega)
  have htna : (((a : Nat) : Int) + 1).toNat = a + 1 := by omega
  have htnb : (((b : Nat) : Int) + 1).toNat = b + 1 := by omega
  unfold frameSizeReads
  dsimp only []
  rw [hA]
  dsimp only []
  rw [hB]
  dsimp only []
  rw [htna, hW]
  dsimp only []
  rw [htnb, hH]
  dsimp only []
  constructor
  · have h0 : (0 : Int) ≤ (wv : Int) := Int.natCast_nonneg wv
    omega
  · have h0 : (0 : Int) ≤ (hvv : Int) := Int.natCast_nonneg hvv
    omega

theorem reducedBranch_pos (r3 : BitReader) :
    1 ≤ (reducedBranch r3).1 ∧ 1 ≤ (reducedBranch r3).2.1 := by
  unfold reducedBranch
  exact frameSizeReads_pos _

theorem fullBranch_pos (r3 : BitReader) :
    1 ≤ (fullBranch r3).1 ∧ 1 ≤ (fullBranch r3).2.1 := by
  unfold fullBranch
  dsimp only []
  exact frameSizeReads_pos _

/-- Both branches of `parseSequenceHeader` produce width and height at
least 1. -/
theorem parseSequenceHeader_pos (d : List Nat) :
    1 ≤ (parseSequenceHeader d).maxFrameWidth ∧
    1 ≤ (parseSequenceHeader d).maxFrameHeight := by
  unfold parseSequenceHeader
  dsimp only []
  constructor
  · split
    · exact (reducedBranch_pos _).1
    · exact (fullBranch_pos _).1
  · split
    · exact (reducedBranch_pos _).2
    · exact (fullBranch_pos _).2

theorem flatten_replicate_length (l : List Nat) : ∀ n : Nat,
    (List.flatten (List.replicate n l)).length = l.length * n := by
  intro n
  induction n with
  | zero => rfl
  | succ m ih =>
    rw [List.replicate_succ, List.flatten_cons, List.length_append, ih]
    ring

theorem flatten_replicate_alpha : ∀ n i : Nat, i < n →
    (List.flatten (List.replicate n ([128, 128, 128, 255] : List Nat))).getD
      (4 * i + 3) 0 = 255 := by
  intro n
  induction n with
  | zero =>
    intro i h
    omega
  | succ m ih =>
    intro i h
    rw [List.replicate_succ, List.flatten_cons]
    rcases Nat.eq_zero_or_pos i with rfl | hpos
    · have h4 : (4 : Nat) * 0 + 3 = 3 := by norm_num
      rw [h4]
      have ht := getD_take (([128, 128, 128, 255] : List Nat) ++
        List.flatten (List.replicate m ([128, 128, 128, 255] : List Nat))) 4 3 (by norm_num)
      rw [takeStep ([128, 128, 128, 255] : List Nat) _ 4 (by rfl)] at ht
      rw [← ht]
      rfl
    · obtain ⟨j, rfl⟩ : ∃ j, i = j + 1 := ⟨i - 1, by omega⟩
      have hidx : 4 * (j + 1) + 3 = 4 + (4 * j + 3) := by ring
      rw [hidx, ← getD_drop, dropStep ([128, 128, 128, 255] : List Nat) _ 4 (by rfl)]
      exact ih j (by omega)

/-- C10: whenever decodeAV1 returns, the pixel buffer has length exactly
maxFrameWidth * maxFrameHeight * 4, every fourth byte (the alpha byte) is
255, and the returned hasAlpha field is false. -/
theorem decodeAV1_unfold (fuel : Nat) (data : List Nat) :
    decodeAV1 fuel data = (match parseOBUs fuel data with
      | .spin => .spin
      | .err _ => .err .obuError
      | .ok obus =>
        match obus.find? (fun o => o.type == 1) with
        | none => .err .noSequenceHeader
        | some seqHeaderOBU =>
          let seqHeader := parseSequenceHeader seqHeaderOBU.data
          match obus.find? (fun o => o.type == 6) with
          | none => .err .noFrame
          | some frameOBU =>
            let pixels := decodeFrame frameOBU.data seqHeader
            .ok ⟨pixels, seqHeader.maxFrameWidth, seqHeader.maxFrameHeight, false,
              seqHeader.bitDepth⟩ : Res Av1Err AvifImageData) := rfl

theorem C10_decoded_frame_shape (fuel : Nat) (data : List Nat) (img : AvifImageData)
    (h : decodeAV1 fuel data = .ok img) :
    (img.data.length : Int) = img.width * img.height * 4 ∧
    (∀ i : Nat, i < (img.width * img.height).toNat →
      img.data.getD (4 * i + 3) 0 = 255) ∧
    img.hasAlpha = false := by
  rw [decodeAV1_unfold] at h
  rcases hO : parseOBUs fuel data with obus | e | _
  rotate_left
  · rw [hO] at h
    simp at h
  · rw [hO] at h
    simp at h
  rw [hO] at h
  dsimp only [] at h
  rcases hF1 : obus.find? (fun o => o.type == 1) with _ | seqOBU
  · rw [hF1] at h
    simp at h
  rw [hF1] at h
  dsimp only [] at h
  rcases hF6 : obus.find? (fun o => o.type == 6) with _ | frameOBU
  · rw [hF6] at h
    simp at h
  rw [hF6] at h
  dsimp only [] at h
  injection h with h2
  subst h2
  dsimp only []
  have hpos := parseSequenceHeader_pos seqOBU.data
  set sh := parseSequenceHeader seqOBU.data with hsh
  have hw : 1 ≤ sh.maxFrameWidth := hpos.1
  have hh : 1 ≤ sh.maxFrameHeight := hpos.2
  have htn : (((sh.maxFrameWidth * sh.maxFrameHeight).toNat : Nat) : Int)
      = sh.maxFrameWidth * sh.maxFrameHeight :=
    Int.toNat_of_nonneg (mul_nonneg (by omega) (by omega))
  refine ⟨?_, ?_, rfl⟩
  · unfold decodeFrame
    rw [flatten_replicate_length]
    have h4 : ([128, 128, 128, 255] : List Nat).length = 4 := rfl
    rw [h4]
    push_cast
    rw [htn]
    ring
  · intro i hi
    unfold decodeFrame
    exact flatten_replicate_alpha _ i hi

theorem C10_decoded_frame_shape_witness :
    ∃ img : AvifImageData, decodeAV1 3 [10, 3, 24, 0, 0, 50, 1, 0] = .ok img ∧
      ((img.data.length : Int) = img.width * img.height * 4 ∧
       (∀ i : Nat, i < (img.width * img.height).toNat →
         img.data.getD (4 * i + 3) 0 = 255) ∧
       img.hasAlpha = false) :=
  have hd : decodeAV1 3 [10, 3, 24, 0, 0, 50, 1, 0]
      = .ok ⟨[128, 128, 128, 255], 1, 1, false, 8⟩ := by decide
  ⟨_, hd, C10_decoded_frame_shape 3 _ _ hd⟩

/-! ## ISOBMFF container (src/container/heif.ts) -/

/-- Embeds the `ISOBMFFBox` record; `children` is absent (undefined) or a
parsed list of child boxes. -/
inductive ISOBMFFBox where
  | mk (type : List Nat) (size : Nat) (offset : Nat) (data : List Nat)
       (children : Option (List ISOBMFFBox))
deriving Repr

def ISOBMFFBox.type : ISOBMFFBox → List Nat
  | .mk t _ _ _ _ => t

def ISOBMFFBox.size : ISOBMFFBox → Nat
  | .mk _ s _ _ _ => s

def ISOBMFFBox.offset : ISOBMFFBox → Nat
  | .mk _ _ o _ _ => o

def ISOBMFFBox.data : ISOBMFFBox → List Nat
  | .mk _ _ _ d _ => d

def ISOBMFFBox.children : ISOBMFFBox → Option (List ISOBMFFBox)
  | .mk _ _ _ _ c => c

/-- Character codes of the box-type strings used by the parser. -/
def metaT : List Nat := [109, 101, 116, 97]

def iprpT : List Nat := [105, 112, 114, 112]

def ipcoT : List Nat := [105, 112, 99, 111]

def ispeT : List Nat := [105, 115, 112, 101]

def pixiT : List Nat := [112, 105, 120, 105]

def av1CT : List Nat := [97, 118, 49, 67]

def iinfT : List Nat := [105, 105, 110, 102]

def infeT : List Nat := [105, 110, 102, 101]

def ilocT : List Nat := [105, 108, 111, 99]

def mdatT : List Nat := [109, 100, 97, 116]

def moovT : List Nat := [109, 111, 111, 118]

def auxlT : List Nat := [97, 117, 120, 108]

/-- Character codes of the string "Alpha" (capital A, as written in the
source). -/
def alphaT : List Nat := [65, 108, 112, 104, 97]

def srgbT : List Nat := [115, 114, 103, 98]

/-- Embeds `isContainerBox(type)`: the fixed container-type list. -/
def containerTypes : List (List Nat) :=
  [[109, 111, 111, 118], [116, 114, 97, 107], [109, 100, 105, 97],
   [109, 105, 110, 102], [115, 116, 98, 108], [100, 105, 110, 102],
   [109, 101, 116, 97], [105, 112, 114, 112], [105, 112, 99, 111],
   [105, 114, 101, 102], [103, 114, 112, 108]]

def isContainerBox (t : List Nat) : Bool :=
  containerTypes.any (fun c => c == t)

/-- Embeds `view.getUint32(i)` where the read is known in bounds, as a plain
big-endian byte combination. -/
def getUint32D (data : List Nat) (i : Nat) : Nat :=
  data.getD i 0 * 16777216 + data.getD (i + 1) 0 * 65536 +
    data.getD (i + 2) 0 * 256 + data.getD (i + 3) 0

/-- Embeds `view.getUint16(i)`; `RangeError` on an out-of-bounds read
becomes `Except.error`. -/
def getUint16E (data : List Nat) (i : Nat) : Except Unit Nat :=
  if i + 2 ≤ data.length then .ok (data.getD i 0 * 256 + data.getD (i + 1) 0)
  else .error ()

/-- Embeds `view.getUint32(i)`; `RangeError` on an out-of-bounds read
becomes `Except.error`. -/
def getUint32E (data : List Nat) (i : Nat) : Except Unit Nat :=
  if i + 4 ≤ data.length then .ok (getUint32D data i)
  else .error ()

/-- Embeds the size/headerSize computation of one `parseISOBMFF` loop
iteration: `size === 1` means 64-bit extended size (whose two reads throw
`RangeError` past the buffer end), `size === 0` means to end of file. -/
def boxHeaderAt (buffer : List Nat) (offset : Nat) : Except Unit (Nat × Nat) :=
  let size := getUint32D buffer offset
  if size = 1 then
    if offset + 16 ≤ buffer.length then
      .ok (16, getUint32D buffer (offset + 8) * 4294967296 +
        getUint32D buffer (offset + 12))
    else .error ()
  else if size = 0 then .ok (8, buffer.length - offset)
  else .ok (8, size)

/-- Embeds the 4-byte type read of one `parseISOBMFF` loop iteration. -/
def boxTypeAt (buffer : List Nat) (offset : Nat) : List Nat :=
  [buffer.getD (offset + 4) 0, buffer.getD (offset + 5) 0,
   buffer.getD (offset + 6) 0, buffer.getD (offset + 7) 0]

/-- Embeds the `parseISOBMFF` while loop (`while (offset < buffer.length - 8)`),
with fuel:  `spin` models the loop never terminating (`offset += boxSize`
makes no progress when `boxSize` is 0), `err` a thrown `RangeError`. -/
def parseISOBMFFAux : Nat → List Nat → Nat → Res Unit (List ISOBMFFBox)
  | 0, _, _ => .spin
  | fuel + 1, buffer, offset =>
    if (offset : Int) < (buffer.length : Int) - 8 then
      match boxHeaderAt buffer offset with
      | .error _ => .err ()
      | .ok hb =>
        let boxSize := hb.2
        let type := boxTypeAt buffer offset
        let data := jsSlice buffer (offset + hb.1) (offset + boxSize)
        match (if isContainerBox type then
                 match parseISOBMFFAux fuel data 0 with
                 | .ok cs => .ok (some cs)
                 | .err e => .err e
                 | .spin => .spin
               else Res.ok none) with
        | .err e => .err e
        | .spin => .spin
        | .ok cs =>
          match parseISOBMFFAux fuel buffer (offset + boxSize) with
          | .ok boxes => .ok (ISOBMFFBox.mk type boxSize offset data cs :: boxes)
          | .err e => .err e
          | .spin => .spin
    else .ok []

/-- Embeds `parseISOBMFF(buffer)` from src/container/heif.ts. -/
def parseISOBMFF (fuel : Nat) (buffer : List Nat) : Res Unit (List ISOBMFFBox) :=
  parseISOBMFFAux fuel buffer 0

mutual

/-- Embeds one iteration of the `findBox(boxes, type)` loop: type match,
then recursion into children when present. -/
def findBoxOne : ISOBMFFBox → List Nat → Option ISOBMFFBox
  | ISOBMFFBox.mk t s o d c, ty =>
    if t == ty then some (ISOBMFFBox.mk t s o d c)
    else
      match c with
      | some cs => findBox cs ty
      | none => none

/-- Embeds `findBox(boxes, type)`: first match in pre-order. -/
def findBox : List ISOBMFFBox → List Nat → Option ISOBMFFBox
  | [], _ => none
  | b :: rest, ty =>
    match findBoxOne b ty with
    | some found => some found
    | none => findBox rest ty

end

/-- Embeds the `ItemLocation` record; an extent is (extentOffset,
extentLength). -/
structure ItemLocation where
  itemId : Nat
  constructionMethod : Nat
  dataReferenceIndex : Nat
  baseOffset : Nat
  extents : List (Nat × Nat)
deriving DecidableEq, Repr

/-- Embeds the `baseOffset` / `extentOffset` / `extentLength` reads of
`parseIloc`: a 4-byte or 8-byte field, everything else read as 0 with no
offset advance. -/
def readSized (data : List Nat) (size off : Nat) : Except Unit (Nat × Nat) :=
  if size = 4 then
    match getUint32E data off with
    | .error e => .error e
    | .ok v => .ok (v, off + 4)
  else if size = 8 then
    match getUint32E data off, getUint32E data (off + 4) with
    | .ok hi, .ok lo => .ok (hi * 4294967296 + lo, off + 8)
    | .error e, _ => .error e
    | _, .error e => .error e
  else .ok (0, off)

/-- Embeds the extent loop of `parseIloc`, by extent count. -/
def ilocExtents (data : List Nat) (offsetSize lengthSize indexSize : Nat) :
    Nat → Nat → Except Unit (List (Nat × Nat) × Nat)
  | 0, off => .ok ([], off)
  | j + 1, off =>
    match readSized data offsetSize (off + indexSize) with
    | .error e => .error e
    | .ok (eo, off2) =>
      match readSized data lengthSize off2 with
      | .error e => .error e
      | .ok (el, off3) =>
        match ilocExtents data offsetSize lengthSize indexSize j off3 with
        | .error e => .error e
        | .ok (rest, off4) => .ok ((eo, el) :: rest, off4)

/-- Embeds the item loop of `parseIloc`, by item count. -/
def ilocItems (data : List Nat) (versionLt2 versionIs12 : Bool)
    (offsetSize lengthSize baseOffsetSize indexSize : Nat) :
    Nat → Nat → Except Unit (List ItemLocation)
  | 0, _ => .ok []
  | i + 1, off =>
    match (if versionLt2 then
             match getUint16E data off with
             | .error e => Except.error e
             | .ok v => .ok (v, off + 2)
           else
             match getUint32E data off with
             | .error e => Except.error e
             | .ok v => .ok (v, off + 4)) with
    | .error e => .error e
    | .ok (itemId, off1) =>
      match (if versionIs12 then
               match getUint16E data off1 with
               | .error e => Except.error e
               | .ok v => .ok (v % 16, off1 + 2)
             else Except.ok (0, off1)) with
      | .error e => .error e
      | .ok (cm, off2) =>
        match getUint16E data off2 with
        | .error e => .error e
        | .ok dri =>
          match readSized data baseOffsetSize (off2 + 2) with
          | .error e => .error e
          | .ok (baseOffset, off4) =>
            match getUint16E data off4 with
            | .error e => .error e
            | .ok ec =>
              match ilocExtents data offsetSize lengthSize indexSize ec (off4 + 2) with
              | .error e => .error e
              | .ok (extents, off6) =>
                match ilocItems data versionLt2 versionIs12 offsetSize lengthSize
                    baseOffsetSize indexSize i off6 with
                | .error e => .error e
                | .ok rest => .ok (⟨itemId, cm, dri, baseOffset, extents⟩ :: rest)

/-- Embeds `parseIloc(data)` from src/container/heif.ts.  `data[0]` is kept
as an `Option` so that an out-of-range read compares like JS `undefined`
(every numeric comparison false). -/
def parseIloc (data : List Nat) : Except Unit (List ItemLocation) :=
  let version := data[0]?
  let versionLt2 : Bool := match version with
    | some v => decide (v < 2)
    | none => false
  let versionIs12 : Bool := match version with
    | some v => v == 1 || v == 2
    | none => false
  let offsetSize := data.getD 4 0 / 16 % 16
  let lengthSize := data.getD 4 0 % 16
  let baseOffsetSize := data.getD 5 0 / 16 % 16
  let indexSize := if versionIs12 then data.getD 5 0 % 16 else 0
  match (if versionLt2 then
           match getUint16E data 6 with
           | .error e => Except.error e
           | .ok v => .ok (v, 8)
         else
           match getUint32E data 6 with
           | .error e => Except.error e
           | .ok v => .ok (v, 10)) with
  | .error e => .error e
  | .ok (itemCount, off) =>
    ilocItems data versionLt2 versionIs12 offsetSize lengthSize baseOffsetSize
      indexSize itemCount off

/-- Embeds the `ItemInfo` record; strings are character-code lists. -/
structure ItemInfo where
  itemId : Nat
  itemProtectionIndex : Nat
  itemType : List Nat
  itemName : List Nat
deriving DecidableEq, Repr

/-- Embeds the null-terminated item-name loop of `parseInfe`, over the
remaining bytes. -/
def readCString : List Nat → List Nat
  | [] => []
  | c :: rest => if c ≠ 0 then c :: readCString rest else []

/-- Embeds `parseInfe(data)` from src/container/heif.ts. -/
def parseInfe (data : List Nat) : Except Unit ItemInfo :=
  let version := data[0]?
  let versionLt2 : Bool := match version with
    | some v => decide (v < 2)
    | none => false
  let versionIs2 : Bool := version == some 2
  match (if versionLt2 || versionIs2 then
           match getUint16E data 4, getUint16E data 6 with
           | .ok a, .ok b => Except.ok (a, b, 8)
           | .error e, _ => .error e
           | _, .error e => .error e
         else
           match getUint32E data 4, getUint16E data 8 with
           | .ok a, .ok b => Except.ok (a, b, 10)
           | .error e, _ => .error e
           | _, .error e => .error e) with
  | .error e => .error e
  | .ok (itemId, itemProtectionIndex, off) =>
    .ok ⟨itemId, itemProtectionIndex,
      [data.getD off 0, data.getD (off + 1) 0, data.getD (off + 2) 0,
       data.getD (off + 3) 0],
      readCString (data.drop (off + 4))⟩

/-- Embeds the entry loop of `parseIinf`, by entry count. -/
def parseIinfEntries (data : List Nat) : Nat → Nat → Except Unit (List ItemInfo)
  | 0, _ => .ok []
  | i + 1, off =>
    match getUint32E data off with
    | .error e => .error e
    | .ok entrySize =>
      if boxTypeAt data off == infeT then
        match parseInfe (jsSlice data (off + 8) (off + entrySize)) with
        | .error e => .error e
        | .ok itemInfo =>
          match parseIinfEntries data i (off + entrySize) with
          | .error e => .error e
          | .ok rest => .ok (itemInfo :: rest)
      else parseIinfEntries data i (off + entrySize)

/-- Embeds `parseIinf(data)` from src/container/heif.ts. -/
def parseIinf (data : List Nat) : Except Unit (List ItemInfo) :=
  let versionIs0 : Bool := data[0]? == some 0
  match (if versionIs0 then
           match getUint16E data 4 with
           | .error e => Except.error e
           | .ok v => .ok (v, 6)
         else
           match getUint32E data 4 with
           | .error e => Except.error e
           | .ok v => .ok (v, 8)) with
  | .error e => .error e
  | .ok (entryCount, off) => parseIinfEntries data entryCount off

/-- Embeds `parseIspe(data)`: width and height at offsets 4 and 8. -/
def parseIspe (data : List Nat) : Except Unit (Nat × Nat) :=
  match getUint32E data 4, getUint32E data 8 with
  | .ok w, .ok h => .ok (w, h)
  | .error e, _ => .error e
  | _, .error e => .error e

/-- Embeds `parsePixi(data)`: the bits-per-channel list. -/
def parsePixi (data : List Nat) : List Nat :=
  (List.range (data.getD 4 0)).map (fun i => data.getD (5 + i) 0)

/-- Embeds the `AV1CodecConfig` record. -/
structure AV1CodecConfig where
  seqProfile : Nat
  seqLevelIdx0 : Nat
  seqTier0 : Nat
  highBitdepth : Nat
  twelveBit : Nat
  monochrome : Nat
  chromaSubsamplingX : Nat
  chromaSubsamplingY : Nat
  chromaSamplePosition : Nat
deriving DecidableEq, Repr

/-- Embeds `parseAv1C(data)` from src/container/heif.ts. -/
def parseAv1C (data : List Nat) : Except Unit AV1CodecConfig :=
  let marker := data.getD 0 0 / 128
  let version := data.getD 0 0 % 128
  if marker ≠ 1 ∨ version ≠ 1 then .error ()
  else
    .ok ⟨data.getD 1 0 / 32 % 8, data.getD 1 0 % 32, data.getD 2 0 / 128 % 2,
      data.getD 2 0 / 64 % 2, data.getD 2 0 / 32 % 2, data.getD 2 0 / 16 % 2,
      data.getD 2 0 / 8 % 2, data.getD 2 0 / 4 % 2, data.getD 2 0 % 4⟩

/-- Embeds JS `String.prototype.includes`: contiguous-substring test on
character-code lists. -/
def jsIncludes (s pat : List Nat) : Bool :=
  (List.range (s.length + 1)).any (fun i => (s.drop i).take pat.length == pat)

/-- Embeds the `AvifInfo` record. -/
structure AvifInfo where
  width : Nat
  height : Nat
  hasAlpha : Bool
  bitDepth : Nat
  colorSpace : List Nat
  isSequence : Bool
deriving DecidableEq, Repr

/-- Embeds the ispe lookup of `getAvifInfo`: dimensions, defaulting to
0 by 0. -/
def avifDims (ipcoChildren : List ISOBMFFBox) : Except Unit (Nat × Nat) :=
  match findBox ipcoChildren ispeT with
  | some b => parseIspe b.data
  | none => .ok (0, 0)

/-- Embeds the pixi/av1C lookups of `getAvifInfo`: the bit depth, default 8,
pixi first channel if present, overridden by a high-bitdepth av1C config. -/
def avifBitDepth (ipcoChildren : List ISOBMFFBox) : Except Unit Nat :=
  let bitDepth0 : Nat :=
    match findBox ipcoChildren pixiT with
    | some b =>
      let bits := parsePixi b.data
      if 0 < bits.length then bits.getD 0 0 else 8
    | none => 8
  match findBox ipcoChildren av1CT with
  | some b =>
    match parseAv1C b.data with
    | .error e => .error e
    | .ok config =>
      .ok (if config.highBitdepth ≠ 0 then
        (if config.twelveBit ≠ 0 then 12 else 10)
      else bitDepth0)
  | none => .ok bitDepth0

/-- Embeds the iinf lookup of `getAvifInfo`: true when some entry has type
auxl or a name containing "Alpha" (case-sensitive `includes`). -/
def avifAlpha (metaChildren : List ISOBMFFBox) : Except Unit Bool :=
  match findBox metaChildren iinfT with
  | some b =>
    match parseIinf b.data with
    | .error e => .error e
    | .ok items =>
      .ok (items.any (fun it =>
        it.itemType == auxlT || jsIncludes it.itemName alphaT))
  | none => .ok false

/-- Embeds `getAvifInfo(boxes)` from src/container/heif.ts; the three
`throw new Error` sites and propagated parse throws become
`Except.error`. -/
def getAvifInfo (boxes : List ISOBMFFBox) : Except Unit AvifInfo :=
  match findBox boxes metaT with
  | none => .error ()
  | some metaBox =>
    match metaBox.children with
    | none => .error ()
    | some metaChildren =>
      match findBox metaChildren iprpT with
      | none => .error ()
      | some iprpBox =>
        match iprpBox.children with
        | none => .error ()
        | some iprpChildren =>
          match findBox iprpChildren ipcoT with
          | none => .error ()
          | some ipcoBox =>
            match ipcoBox.children with
            | none => .error ()
            | some ipcoChildren =>
              match avifDims ipcoChildren with
              | .error e => .error e
              | .ok wh =>
                match avifBitDepth ipcoChildren with
                | .error e => .error e
                | .ok bitDepth =>
                  match avifAlpha metaChildren with
                  | .error e => .error e
                  | .ok hasAlpha =>
                    .ok ⟨wh.1, wh.2, hasAlpha, bitDepth, srgbT,
                      boxes.any (fun b => b.type == moovT)⟩

/-- Embeds `getImageData(buffer, boxes, itemId)` from src/container/heif.ts.
Null returns become `.ok none`; a throw out of `parseIloc` becomes
`.error`. -/
def getImageData (buffer : List Nat) (boxes : List ISOBMFFBox) (itemId : Nat) :
    Except Unit (Option (List Nat)) :=
  match findBox boxes metaT with
  | none => .ok none
  | some metaBox =>
    match metaBox.children with
    | none => .ok none
    | some metaChildren =>
      match findBox metaChildren ilocT with
      | none => .ok none
      | some ilocBox =>
        match parseIloc ilocBox.data with
        | .error e => .error e
        | .ok locations =>
          match locations.find? (fun loc => loc.itemId == itemId) with
          | none => .ok none
          | some location =>
            let mdatOffset :=
              match findBox boxes mdatT with
              | some b => b.offset + 8
              | none => 0
            .ok (some (List.flatten (location.extents.map (fun e =>
              jsSlice buffer (location.baseOffset + e.1 + mdatOffset)
                (location.baseOffset + e.1 + mdatOffset + e.2)))))

/-! ## C3, C4, C9: parseISOBMFF loop behaviour -/

/-- One loop step on the malformed buffer whose first box declares the
64-bit extended size 0: the offset never advances. -/
theorem C4_step (n : Nat) :
    parseISOBMFFAux (n + 1) [0, 0, 0, 1, 97, 98, 99, 100, 0, 0, 0, 0, 0, 0, 0, 0, 0] 0
      = (match parseISOBMFFAux n [0, 0, 0, 1, 97, 98, 99, 100, 0, 0, 0, 0, 0, 0, 0, 0, 0] 0 with
         | .ok boxes => .ok (ISOBMFFBox.mk [97, 98, 99, 100] 0 0 [] none :: boxes)
         | .err e => .err e
         | .spin => .spin) := rfl

/-- C4: parseISOBMFF does not terminate on every input: a buffer whose first
box declares a 64-bit extended size of 0 makes `offset += boxSize` loop
forever, for every amount of fuel. -/
theorem C4_parse_loops_on_zero_extended_size (fuel : Nat) :
    parseISOBMFF fuel [0, 0, 0, 1, 97, 98, 99, 100, 0, 0, 0, 0, 0, 0, 0, 0, 0] = .spin := by
  unfold parseISOBMFF
  induction fuel with
  | zero => rfl
  | succ n ih =>
    rw [C4_step, ih]

/-- The parse loop exits at once when the current offset is not strictly
below `buffer.length - 8`. -/
theorem parseISOBMFFAux_done (buffer : List Nat) (offset fuel : Nat) (hf : 1 ≤ fuel)
    (h : buffer.length ≤ offset + 8) : parseISOBMFFAux fuel buffer offset = .ok [] := by
  obtain ⟨n, rfl⟩ : ∃ n, fuel = n + 1 := ⟨fuel - 1, by omega⟩
  unfold parseISOBMFFAux
  rw [if_neg (by push_cast; omega)]

/-- C9: the loop only starts a box strictly before `buffer.length - 8`, so a
buffer of at most 8 bytes parses to the empty list and a well-formed box
occupying exactly the last 8 bytes is silently omitted. -/
theorem C9_trailing_box_omitted :
    (∀ (buffer : List Nat) (offset fuel : Nat), 1 ≤ fuel →
        buffer.length ≤ offset + 8 → parseISOBMFFAux fuel buffer offset = .ok []) ∧
    (∀ (buffer : List Nat) (fuel : Nat), 1 ≤ fuel → buffer.length ≤ 8 →
        parseISOBMFF fuel buffer = .ok []) ∧
    parseISOBMFF 3 [0, 0, 0, 9, 97, 97, 97, 97, 5, 0, 0, 0, 8, 98, 98, 98, 98]
      = .ok [ISOBMFFBox.mk [97, 97, 97, 97] 9 0 [5] none] := by
  refine ⟨fun buffer offset fuel hf h => parseISOBMFFAux_done buffer offset fuel hf h,
    fun buffer fuel hf h => parseISOBMFFAux_done buffer 0 fuel hf (by omega), ?_⟩
  rfl

theorem C9_trailing_box_omitted_witness :
    parseISOBMFF 1 [1, 2, 3, 4, 5, 6, 7, 8] = .ok [] :=
  C9_trailing_box_omitted.2.1 [1, 2, 3, 4, 5, 6, 7, 8] 1 (by norm_num) (by norm_num)

/-- C3 counterexample: a first box declaring 32-bit size 100 in a 12-byte
buffer parses without any error to a single truncated box. -/
theorem C3_truncated_box_returned :
    parseISOBMFF 2 [0, 0, 0, 100, 97, 98, 99, 100, 1, 2, 3, 4]
      = .ok [ISOBMFFBox.mk [97, 98, 99, 100] 100 0 [1, 2, 3, 4] none] := rfl

/-- C3: a declared 32-bit size extending past the buffer end is not
rejected; the first box is returned with silently truncated data. -/
theorem C3_oversized_box_truncated (buffer : List Nat) (s : Nat)
    (hlen : 9 ≤ buffer.length) (hsz : getUint32D buffer 0 = s) (h2 : 2 ≤ s)
    (hbig : buffer.length < s) (hnc : isContainerBox (boxTypeAt buffer 0) = false)
    (fuel : Nat) (hf : 2 ≤ fuel) :
    parseISOBMFF fuel buffer
      = .ok [ISOBMFFBox.mk (boxTypeAt buffer 0) s 0 (buffer.drop 8) none] := by
  obtain ⟨k, rfl⟩ : ∃ k, fuel = k + 2 := ⟨fuel - 2, by omega⟩
  have hhdr : boxHeaderAt buffer 0 = .ok (8, s) := by
    unfold boxHeaderAt
    dsimp only []
    rw [hsz, if_neg (by omega), if_neg (by omega)]
  have hrec : parseISOBMFFAux (k + 1) buffer (0 + s) = .ok [] :=
    parseISOBMFFAux_done buffer (0 + s) (k + 1) (by omega) (by omega)
  have hdata : jsSlice buffer (0 + 8) (0 + s) = buffer.drop 8 := by
    unfold jsSlice
    rw [Nat.zero_add, Nat.zero_add, List.take_of_length_le (by omega)]
  unfold parseISOBMFF
  unfold parseISOBMFFAux
  rw [if_pos (by push_cast; omega), hhdr]
  dsimp only []
  rw [hnc, if_neg (by simp)]
  dsimp only []
  rw [hrec, hdata]

theorem C3_oversized_box_truncated_witness :
    parseISOBMFF 2 [0, 0, 0, 100, 97, 98, 99, 100, 1, 2, 3, 4]
      = .ok [ISOBMFFBox.mk [97, 98, 99, 100] 100 0 [1, 2, 3, 4] none] :=
  C3_oversized_box_truncated [0, 0, 0, 100, 97, 98, 99, 100, 1, 2, 3, 4] 100
    (by norm_num) (by decide) (by norm_num) (by norm_num) (by decide) 2 (by norm_num)

/-! ## C2: construction methods other than 0 -/

/-- C2: an iloc entry with constructionMethod 1 is resolved against the
file buffer exactly like construction method 0: `getImageData` never
consults the field and returns bytes instead of failing. -/
theorem C2_construction_method_ignored :
    (∃ loc, parseIloc [1, 0, 0, 0, 4, 0, 0, 1, 0, 1, 0, 1, 0, 0, 0, 1, 0, 0, 0, 2]
        = .ok [loc] ∧ loc.constructionMethod = 1) ∧
    getImageData [170, 187, 204, 221]
      [ISOBMFFBox.mk metaT 20 0 [] (some [ISOBMFFBox.mk ilocT 20 0
        [1, 0, 0, 0, 4, 0, 0, 1, 0, 1, 0, 1, 0, 0, 0, 1, 0, 0, 0, 2] none])] 1
      = .ok (some [170, 187]) :=
  ⟨⟨⟨1, 1, 0, 0, [(0, 2)]⟩, rfl, rfl⟩, rfl⟩

/-! ## C5: hasAlpha and isSequence -/

/-- Spec-side lower-casing of an ASCII character code. -/
def toLowerCode (c : Nat) : Nat := if 65 ≤ c ∧ c ≤ 90 then c + 32 else c

/-- Spec-side predicate: the item name contains "alpha" case-insensitively
(the claim's wording). -/
def spec_name_has_alpha_ci (name : List Nat) : Bool :=
  jsIncludes (name.map toLowerCode) [97, 108, 112, 104, 97]

/-- Spec-side predicate (claim wording): some iinf entry of the tree has
item type auxl or an item name containing "alpha" case-insensitively. -/
def spec_hasAlpha_ci (boxes : List ISOBMFFBox) : Bool :=
  match findBox boxes metaT with
  | none => false
  | some mb =>
    match mb.children with
    | none => false
    | some cs =>
      match findBox cs iinfT with
      | none => false
      | some ib =>
        match parseIinf ib.data with
        | .error _ => false
        | .ok items =>
          items.any (fun it => it.itemType == auxlT ||
            spec_name_has_alpha_ci it.itemName)

/-- Amended predicate: some iinf entry has item type auxl or an item name
containing the exact string "Alpha" (case-sensitively, as the code
compares). -/
def spec_hasAlpha_cs (boxes : List ISOBMFFBox) : Bool :=
  match findBox boxes metaT with
  | none => false
  | some mb =>
    match mb.children with
    | none => false
    | some cs =>
      match findBox cs iinfT with
      | none => false
      | some ib =>
        match parseIinf ib.data with
        | .error _ => false
        | .ok items =>
          items.any (fun it => it.itemType == auxlT ||
            jsIncludes it.itemName alphaT)

/-- Spec-side predicate: a top-level moov box is present. -/
def spec_isSequence (boxes : List ISOBMFFBox) : Bool :=
  boxes.any (fun b => b.type == moovT)

/-- Concrete tree whose only iinf entry is named "alpha" in lower case. -/
def c5Boxes : List ISOBMFFBox :=
  [ISOBMFFBox.mk metaT 0 0 [] (some [
    ISOBMFFBox.mk iprpT 0 0 [] (some [ISOBMFFBox.mk ipcoT 0 0 [] (some [])]),
    ISOBMFFBox.mk iinfT 0 0
      ([0, 0, 0, 0, 0, 1, 0, 0, 0, 25, 105, 110, 102, 101] ++
       [2, 0, 0, 0, 0, 1, 0, 0, 97, 118, 48, 49, 97, 108, 112, 104, 97]) none])]

/-- C5 counterexample: the item name "alpha" (lower case) satisfies the
claim's case-insensitive predicate, yet getAvifInfo reports
hasAlpha = false, because the code compares against "Alpha"
case-sensitively. -/
theorem C5_lowercase_alpha_missed :
    (∃ info, getAvifInfo c5Boxes = .ok info ∧ info.hasAlpha = false) ∧
    spec_hasAlpha_ci c5Boxes = true :=
  ⟨⟨⟨0, 0, false, 8, srgbT, false⟩, rfl, rfl⟩, rfl⟩

/-- C5: for every accepted box tree, isSequence is exactly the presence of
a top-level moov box, and hasAlpha is exactly the case-SENSITIVE
auxl-or-"Alpha" predicate over the parsed iinf entries. -/
theorem C5_info_flags (boxes : List ISOBMFFBox) (info : AvifInfo)
    (h : getAvifInfo boxes = .ok info) :
    info.isSequence = spec_isSequence boxes ∧
    info.hasAlpha = spec_hasAlpha_cs boxes := by
  unfold getAvifInfo at h
  rcases hM : findBox boxes metaT with _ | mb
  · rw [hM] at h
    simp at h
  rw [hM] at h
  dsimp only [] at h
  rcases hC : mb.children with _ | cs
  · rw [hC] at h
    simp at h
  rw [hC] at h
  dsimp only [] at h
  rcases hP : findBox cs iprpT with _ | pb
  · rw [hP] at h
    simp at h
  rw [hP] at h
  dsimp only [] at h
  rcases hPC : pb.children with _ | pcs
  · rw [hPC] at h
    simp at h
  rw [hPC] at h
  dsimp only [] at h
  rcases hO : findBox pcs ipcoT with _ | ob
  · rw [hO] at h
    simp at h
  rw [hO] at h
  dsimp only [] at h
  rcases hOC : ob.children with _ | ocs
  · rw [hOC] at h
    simp at h
  rw [hOC] at h
  dsimp only [] at h
  rcases hWH : avifDims ocs with e | wh
  · rw [hWH] at h
    simp at h
  rw [hWH] at h
  dsimp only [] at h
  rcases hBD : avifBitDepth ocs with e | bd
  · rw [hBD] at h
    simp at h
  rw [hBD] at h
  dsimp only [] at h
  rcases hA : avifAlpha cs with e | alpha
  · rw [hA] at h
    simp at h
  rw [hA] at h
  dsimp only [] at h
  injection h with h2
  subst h2
  constructor
  · rfl
  · show alpha = spec_hasAlpha_cs boxes
    unfold spec_hasAlpha_cs
    unfold avifAlpha at hA
    rw [hM]
    dsimp only []
    rw [hC]
    dsimp only []
    rcases hI : findBox cs iinfT with _ | ib
    · rw [hI] at hA
      dsimp only [] at hA ⊢
      injection hA with h3
      exact h3.symm
    rw [hI] at hA
    dsimp only [] at hA ⊢
    rcases hPI : parseIinf ib.data with e | items
    · rw [hPI] at hA
      simp at hA
    rw [hPI] at hA
    dsimp only [] at hA ⊢
    injection hA with h3
    exact h3.symm

theorem C5_info_flags_witness :
    getAvifInfo c5Boxes = .ok ⟨0, 0, false, 8, srgbT, false⟩ ∧
    ((⟨0, 0, false, 8, srgbT, false⟩ : AvifInfo).isSequence
        = spec_isSequence c5Boxes ∧
     (⟨0, 0, false, 8, srgbT, false⟩ : AvifInfo).hasAlpha
        = spec_hasAlpha_cs c5Boxes) :=
  have h : getAvifInfo c5Boxes = .ok ⟨0, 0, false, 8, srgbT, false⟩ := rfl
  ⟨h, C5_info_flags c5Boxes ⟨0, 0, false, 8, srgbT, false⟩ h⟩
